import Mathlib

/-!
# redump: stream alignment and word classification

A shallow embedding of `redump.c` (freedreno).  The program reads N capture
files in lockstep, one record per file per iteration, and for command-stream
records renders every 32-bit word, aligned against the other streams.

Conventions of the embedding

* `uint32_t` values are `Nat`; where the C arithmetic truncates, the
  truncation is written out (`% 2 ^ 32`, `% 2 ^ 64`).
* `int` values are `Int`; C's `/` on `int` is `Int.tdiv` (rounds to zero).
* `ctx->buf` is a pointer to 32-bit words.  A load `ctx->buf[n]` is modelled
  as `ctx.buf n` for any `n : Int`: the word that memory holds at that word
  index relative to the pointer.  The record occupies the indices
  `0 .. sz/4 - 1`; what lies outside is whatever the memory holds.
* the global `ctxts[32]` / `nctxts` pair is a `List context`, `nctxts` being
  its length; `ctxts[k]` is `ctxAt cs k`.
* `offsets_t` (an `int[32]`) is a `List Int` read with `offAt` and written
  with `List.set`; it is meant to hold at least `nctxts` entries.
-/

namespace Redump

/-! ## Tables -/

/-- The table `patterns[]`, ordered from most to least inclusive mask. -/
def patterns : List Nat :=
  [0xffffffff, 0xffffff00, 0xffff00ff, 0xff00ffff, 0x00ffffff, 0xffff0000,
   0x0000ffff, 0xff000000, 0x00ff0000, 0x0000ff00, 0x000000ff]

/-- The table `known_patterns[]` of `(val, mask, color)` entries. -/
def known_patterns : List (Nat × Nat × Nat) :=
  [(0x7c000275, 0xffffffff, 0xdd0000), (0x7c000100, 0xffffff00, 0x990099)]

/-- The table `param_colors[]`. -/
def param_colors : List Nat :=
  [0x00ff1111, 0x0011ff11, 0x001111ff, 0x00aa11aa, 0x00aaaa11, 0x0011aaaa,
   0x00111111, 0x00ffffff, 0x00ffffff, 0x00ffffff, 0x00ffffff]

/-- The table `param_names[]`. -/
def param_names : List String :=
  ["surface width", "surface height", "color", "blit x", "blit y",
   "blit width", "blit height", "", "", "", ""]

/-! ## Data model -/

/-- The C `struct param`: `type` (an `enum rd_param_type`, kept as its
integer value), `val` and `bitlen`. -/
structure param where
  type : Nat
  val : Nat
  bitlen : Nat
deriving DecidableEq, Repr

/-- The C `struct context` without the file descriptor.  `buf` is the view of
memory through the pointer `ctx->buf` (word index to word), `sz` the size in
bytes of the current record, `gpuaddrs`/`ngpuaddrs` and `params`/`nparams`
the two fixed arrays with their fill counts. -/
structure context where
  buf : Int → Nat
  sz : Int
  gpuaddrs : List Nat
  ngpuaddrs : Nat
  params : List param
  nparams : Nat

/-- A zero-initialised `struct context` (the state of an unused slot of the
global array; `buf` is the null pointer, read as zero words). -/
def context.zero : context :=
  { buf := fun _ => 0, sz := 0, gpuaddrs := List.replicate 32 0, ngpuaddrs := 0,
    params := List.replicate 32 ⟨0, 0, 0⟩, nparams := 0 }

/-- Read of `ctxts[k]`. -/
def ctxAt (cs : List context) (k : Nat) : context := cs.getD k context.zero

/-- Read of `offsets[k]`. -/
def offAt (offsets : List Int) (k : Nat) : Int := offsets.getD k 0

/-- The word `ctxts[k].buf[i - offsets[k]]`: stream `k`'s word at its own
adjusted index. -/
def wordAt (cs : List context) (k : Nat) (i : Int) (offsets : List Int) : Nat :=
  (ctxAt cs k).buf (i - offAt offsets k)

/-! ## find_gpuaddr, find_pattern -/

/-- The function `find_gpuaddr`: the first `i < ngpuaddrs` with
`dword == gpuaddrs[i]`, or `-1`. -/
def find_gpuaddr (ctx : context) (dword : Nat) : Int :=
  match (List.range ctx.ngpuaddrs).find? (fun i => dword == ctx.gpuaddrs.getD i 0) with
  | some i => (i : Int)
  | none => -1

/-- The inner loop of `find_pattern`: `found` stays 1 iff no stream `k`
has `(dword & pattern) != (other_dword & pattern)`. -/
def pattern_found (cs : List context) (dword : Nat) (i : Int) (offsets : List Int)
    (pattern : Nat) : Bool :=
  (List.range cs.length).all
    (fun k => dword &&& pattern == wordAt cs k i offsets &&& pattern)

/-- The function `find_pattern`: the first `j` whose mask all streams agree
on with `dword`, or `-1`. -/
def find_pattern (cs : List context) (dword : Nat) (i : Int) (offsets : List Int) : Int :=
  match (List.range patterns.length).find?
      (fun j => pattern_found cs dword i offsets (patterns.getD j 0)) with
  | some j => (j : Int)
  | none => -1

/-! ## find_rank -/

/-- The first loop of `find_rank` ("check if we are past the end"): some
stream `k` has `i >= ctxts[k].sz/4 + offsets[k]`. -/
def past_end (cs : List context) (i : Int) (offsets : List Int) : Bool :=
  (List.range cs.length).any
    (fun k => decide (i ≥ (ctxAt cs k).sz.tdiv 4 + offAt offsets k))

/-- The loop of the `j >= 0` branch of `find_rank`: every stream `k` has
`j == find_gpuaddr(ctx_k, ctx_k->buf[i - offsets[k]])`. -/
def all_gpuaddr (cs : List context) (j : Int) (i : Int) (offsets : List Int) : Bool :=
  (List.range cs.length).all
    (fun k => j == find_gpuaddr (ctxAt cs k) (wordAt cs k i offsets))

/-- The value of the local `rank` of `find_rank` just before the recursive
call is added: the per-position rank at global index `i`. -/
def rank_at (cs : List context) (i : Int) (offsets : List Int) : Int :=
  let dword := wordAt cs 0 i offsets
  let j := find_gpuaddr (ctxAt cs 0) dword
  if j ≥ 0 then
    if all_gpuaddr cs j i offsets then (patterns.length : Int) else 0
  else
    let j := find_pattern cs dword i offsets
    if j ≥ 0 then (patterns.length : Int) - 1 - j else 0

/-- The recursion of `find_rank`, on an explicit bound for its depth. -/
def find_rank_aux (cs : List context) (offsets : List Int) : Nat → Int → Int
  | 0, _ => 0
  | fuel + 1, i =>
    if past_end cs i offsets then 0
    else rank_at cs i offsets + (find_rank_aux cs offsets fuel (i + 1)).tdiv 2

/-- The number of words stream 0 still has at global index `i`; with at least
one stream the recursion of `find_rank` is no deeper than this. -/
def rank_fuel (cs : List context) (i : Int) (offsets : List Int) : Nat :=
  ((ctxAt cs 0).sz.tdiv 4 + offAt offsets 0 - i).toNat

/-- The function `find_rank`.  With `nctxts = 0` the C recursion has no base
case and does not return; the embedding is meant for `nctxts >= 1`, where
`find_rank_unfold` shows that it satisfies the recursion of the source. -/
def find_rank (cs : List context) (i : Int) (offsets : List Int) : Int :=
  find_rank_aux cs offsets (rank_fuel cs i offsets) i

/-! ## adjust_offsets -/

/-- The first loop of `adjust_offsets`: the largest `sz`, starting from 0. -/
def max_sz (cs : List context) : Int :=
  (List.range cs.length).foldl
    (fun m k => if (ctxAt cs k).sz > m then (ctxAt cs k).sz else m) 0

/-- The test `(ctxts[k].sz/4 + offsets[k]) < max_sz/4` of `adjust_offsets`. -/
def eligible (cs : List context) (offsets : List Int) (k : Nat) : Bool :=
  decide ((ctxAt cs k).sz.tdiv 4 + offAt offsets k < (max_sz cs).tdiv 4)

/-- One iteration of the second loop of `adjust_offsets`, on the state
`(offsets, new_offsets, rank)`. -/
def adjust_step (cs : List context) (i : Int)
    (st : List Int × List Int × Int) (k : Nat) : List Int × List Int × Int :=
  if eligible cs st.1 k then
    let new1 := st.2.1.set k (offAt st.2.1 k + 1)
    let new_rank := find_rank cs i new1
    if new_rank > st.2.2 then (new1, new1, new_rank)
    else (st.1, new1.set k (offAt new1 k - 1), st.2.2)
  else st

/-- The function `adjust_offsets` (its `ctx` argument is unused in the
source); the result is the final content of the in/out array `offsets`. -/
def adjust_offsets (cs : List context) (i : Int) (offsets : List Int) : List Int :=
  ((List.range cs.length).foldl (adjust_step cs i)
    (offsets, offsets, find_rank cs i offsets)).1

/-! ## The parameter scan of handle_hexdump -/

/-- The C macro `ALIGN(v,a)`, `(v + a - 1) & ~(a - 1)`, computed in `uint32_t`
as it is for `ALIGN(param->bitlen, 8)` (`a >= 1`). -/
def ALIGN (v a : Nat) : Nat :=
  ((v + a - 1) % 2 ^ 32) &&& (2 ^ 32 - 1 - (a - 1))

/-- The `int` expression `1 << bitlen`, in two's complement (`1 << 31` is
`INT_MIN`).  C leaves the shift undefined for `bitlen >= 32`; the embedding
then takes the count modulo 32, and no theorem below relies on that case. -/
def shl_one (bitlen : Nat) : Int :=
  if 2 ^ (bitlen % 32) < 2 ^ 31 then (2 ^ (bitlen % 32) : Int)
  else (2 ^ (bitlen % 32) : Int) - 2 ^ 32

/-- The initial mask `m = (uint64_t)(1 << bitlen) - 1`. -/
def param_mask (bitlen : Nat) : Nat :=
  ((shl_one bitlen - 1) % 2 ^ 64).toNat

/-- The `do ... while (m & 0xffffffff)` loop of the parameter scan, with a
bound on the number of iterations.  `some (some mask)`: matched, the value
stored in `pmasks[n]` (a `uint32_t`); `some none`: left without a match;
`none`: the bound was reached.  The shifts are the mathematical ones,
truncated to the width of the variable: a shift count of 32 or more on `val`,
or of 64 or more on `m`, is undefined in C and outside the embedding. -/
def param_scan_loop (dword alignedlen : Nat) : Nat → Nat → Nat → Option (Option Nat)
  | 0, _, _ => none
  | fuel + 1, m, val =>
    if dword &&& m == val then some (some (m % 2 ^ 32))
    else
      let m1 := (m <<< alignedlen) % 2 ^ 64
      let val1 := (val <<< alignedlen) % 2 ^ 32
      if m1 &&& 0xffffffff != 0 then param_scan_loop dword alignedlen fuel m1 val1
      else some none

/-- The scan of `dword` for one parameter of value `val` and length `bitlen`
(the body of the `for (j = 0; j < ctx->nparams; j++)` loop after the zero
test).  65 iterations are enough whenever the mask really moves
(`alignedlen >= 1`, see `param_scan_loop_returns`). -/
def param_scan (dword val bitlen : Nat) : Option Nat :=
  (param_scan_loop dword (ALIGN bitlen 8) 65 (param_mask bitlen) val).join

/-- Iteration `j` of the parameter loop of `handle_hexdump`: nothing for a
parameter of value zero or without a match, else the entry
`(pmasks[n], pcolors[n], pnames[n])` that is stored.  `param_colors` and
`param_names` have 11 entries and the source indexes them with the type word
as read from the file: for a type of 11 or more the read is past the tables
and outside the embedding, which then gives colour 0 and the empty name. -/
def param_entry (ctx : context) (dword : Nat) (j : Nat) : Option (Nat × Nat × String) :=
  let p := ctx.params.getD j ⟨0, 0, 0⟩
  if p.val = 0 then none
  else (param_scan dword p.val p.bitlen).map
    (fun m => (m, param_colors.getD p.type 0, param_names.getD p.type ""))

/-- The parameter loop of `handle_hexdump`: the entries stored in `pmasks`,
`pcolors`, `pnames`, in order.  The C arrays hold 4 entries and the source
stores entry `n` at index `n` without a bound: the list is what the source
holds as long as it has at most 4 entries, a fifth store is past the arrays
and what the program then prints is outside the embedding. -/
def param_matches (ctx : context) (dword : Nat) : List (Nat × Nat × String) :=
  (List.range ctx.nparams).filterMap (param_entry ctx dword)

/-- The `known_patterns` loop of `handle_hexdump`: `(known_mask,
known_pattern_color)`, both 0 when no entry matches. -/
def known_match (dword : Nat) : Nat × Nat :=
  match known_patterns.find? (fun e => e.1 == dword &&& e.2.1) with
  | some e => (e.2.1, e.2.2)
  | none => (0, 0)

/-! ## handle_hexdump -/

/-- One rendered byte of a word in the shared-pattern branch: whether it is
wrapped in `<b>`, its colour and its value. -/
structure byte_out where
  bold : Bool
  color : Nat
  value : Nat
deriving DecidableEq, Repr

/-- What `handle_hexdump` prints for one word: the `(gpuaddr)` line with the
index found, the shared-pattern line (four bytes, most significant first,
and the names of the matched parameters), or the raw black line. -/
inductive wordclass where
  | gpuaddr (j : Int) (dword : Nat)
  | shared (bytes : List byte_out) (names : List String)
  | raw (dword : Nat)
deriving DecidableEq, Repr

/-- One iteration of the word loop of `handle_hexdump`: the value of `j`
that drives the `while (j--)` filler loop (`offsets[idx] - offset`), and the
line of the word. -/
structure word_out where
  fillers : Int
  cls : wordclass
deriving DecidableEq, Repr

/-- Iteration `k` of the `for (k = 0; k < 4; k++, mask >>= 8, shift -= 8)`
loop: the colour is blue or black by `pattern`, overridden by the known
pattern, overridden by the first parameter whose mask covers the byte. -/
def render_byte (dword pattern known_mask known_color : Nat)
    (pm : List (Nat × Nat × String)) (k : Nat) : byte_out :=
  let mask := 0xff000000 >>> (8 * k)
  let shift := 24 - 8 * k
  let color0 := if pattern &&& mask != 0 then 0x0000ff else 0x000000
  let color1 := if mask &&& known_mask != 0 then known_color else color0
  match pm.find? (fun e => mask &&& e.1 != 0) with
  | some e => ⟨true, e.2.1, (dword &&& mask) >>> shift⟩
  | none => ⟨false, color1, (dword &&& mask) >>> shift⟩

/-- The body of the `if (j >= 0)` branch after `find_pattern` returned `j`. -/
def render_shared (ctx : context) (dword : Nat) (j : Nat) : wordclass :=
  let pattern := patterns.getD j 0
  let km := known_match dword
  let pm := param_matches ctx dword
  wordclass.shared
    ((List.range 4).map (render_byte dword pattern km.1 km.2 pm))
    (pm.map (fun e => e.2.2))

/-- The classification of `dword`, word of stream `idx`, at global index `gi`
under `offsets`: address check, then shared pattern, then raw. -/
def classify (cs : List context) (idx : Nat) (dword : Nat) (gi : Int)
    (offsets : List Int) : wordclass :=
  let j := find_gpuaddr (ctxAt cs idx) dword
  if j ≥ 0 then wordclass.gpuaddr j dword
  else
    let j := find_pattern cs dword gi offsets
    if j ≥ 0 then render_shared (ctxAt cs idx) dword j.toNat
    else wordclass.raw dword

/-- The word loop of `handle_hexdump` from local index `i` on, `n` words
left, with the current values of `offset` and `offsets`. -/
def hexdump_loop (cs : List context) (idx : Nat) :
    Nat → Int → Int → List Int → List word_out
  | 0, _, _, _ => []
  | n + 1, i, offset, offsets =>
    let offsets1 := adjust_offsets cs (i + offset) offsets
    let j := offAt offsets1 idx - offset
    let offset1 := offAt offsets1 idx
    let dword := (ctxAt cs idx).buf i
    ⟨j, classify cs idx dword (i + offset1) offsets1⟩ ::
      hexdump_loop cs idx n (i + 1) offset1 offsets1

/-- The all-zero offsets vector `offsets_t offsets = {0}`. -/
def zero_offsets : List Int := List.replicate 32 0

/-- The function `handle_hexdump` for `ctx = &ctxts[idx]`: one entry per
word `i < ctx->sz/4`, starting from `offsets = {0}` and `offset = 0`. -/
def handle_hexdump (cs : List context) (idx : Nat) : List word_out :=
  hexdump_loop cs idx ((ctxAt cs idx).sz.tdiv 4).toNat 0 0 zero_offsets

/-! ### The text printed -/

/-- The function `handle_gpuaddr`, its effect on the context:
`ctx->gpuaddrs[ctx->ngpuaddrs++] = buf[0]`.  (The array holds 32 entries; a
write past it is outside the embedding.) -/
def handle_gpuaddr (ctx : context) : context :=
  { ctx with gpuaddrs := ctx.gpuaddrs.set ctx.ngpuaddrs (ctx.buf 0),
             ngpuaddrs := ctx.ngpuaddrs + 1 }

/-- The function `handle_param`, its effect on the context:
`ctx->params[ctx->nparams++]` gets `(buf[0], buf[1], buf[2])`.  (The array
holds 32 entries; a write past it is outside the embedding.) -/
def handle_param (ctx : context) : context :=
  { ctx with params := ctx.params.set ctx.nparams ⟨ctx.buf 0, ctx.buf 1, ctx.buf 2⟩,
             nparams := ctx.nparams + 1 }

/-- The function `handle_flush`: `ctx->nparams = 0`. -/
def handle_flush (ctx : context) : context :=
  { ctx with nparams := 0 }

/-- The call `handler(&ctxts[idx])` of a handler that updates its context. -/
def dispatch (h : context → context) (cs : List context) (idx : Nat) : List context :=
  cs.set idx (h (ctxAt cs idx))

/-- The start of a loop iteration of `main` for one stream that has a record:
`ctx->sz` and `ctx->buf` are replaced, the rest of the context is kept. -/
def load_record (ctx : context) (sz : Int) (buf : Int → Nat) : context :=
  { ctx with sz := sz, buf := buf }

/-- A buffer as `main` allocates it, seen as words: the record's words, then
zero (the `calloc` padding); `pre` is the word memory holds before the
buffer.  Past the `sz + 21` allocated bytes the view goes on with zeros, one
content memory can have there: what a read finds there is outside the
embedding, and `in_buffer` tells whether an index is inside the allocation. -/
def mem (pre : Nat) (words : List Nat) : Int → Nat :=
  fun n => if n < 0 then pre else words.getD n.toNat 0

/-! ## The parameter scan as the specification words it -/

/-- The lowest shift `k` of `shifts` with `k + b <= 32` at which bits
`[k, k+b)` of `w` equal `v`, reported as the `b`-bit mask moved to `k`. -/
def scan_at_shifts (shifts : List Nat) (w v b : Nat) : Option Nat :=
  (shifts.find? (fun k => decide (k + b ≤ 32) && ((w >>> k) % 2 ^ b == v))).map
    (fun k => (2 ^ b - 1) <<< k)

/-- The scan of the specification: the byte-aligned shifts 0, 8, 16, 24. -/
def claimed_scan (w v b : Nat) : Option Nat :=
  scan_at_shifts [0, 8, 16, 24] w v b

/-- The scan at the shifts the loop visits: multiples of `ALIGN(b, 8)`. -/
def stepped_scan (w v b : Nat) : Option Nat :=
  scan_at_shifts [0, ALIGN b 8, 2 * ALIGN b 8, 3 * ALIGN b 8] w v b

/-! ## The records a stream reads -/

/-- The record kinds that have an entry in `sect_handlers[]`. -/
inductive sect where
  | test | cmd | gpuaddr | context | cmdstream | param | flush
deriving DecidableEq, Repr

/-- The effect on the stream's context of the handler `sect_handlers[t]`:
`handle_string`, `handle_context` and `handle_cmdstream` only print. -/
def sect_state (t : sect) (ctx : context) : context :=
  match t with
  | sect.gpuaddr => handle_gpuaddr ctx
  | sect.param => handle_param ctx
  | sect.flush => handle_flush ctx
  | _ => ctx

/-- One iteration of the loop of `main` seen from one stream that reads a
record `(type, sz, payload)` of the row's type: the buffer and size are
replaced and, `if (ctx->sz > 0)`, the handler of the type runs. -/
def step_record (ctx : context) (r : sect × Int × (Int → Nat)) : context :=
  if r.2.1 > 0 then sect_state r.1 (load_record ctx r.2.1 r.2.2)
  else load_record ctx r.2.1 r.2.2

/-- A stream's context after reading the records `recs` in order. -/
def run_records (ctx : context) (recs : List (sect × Int × (Int → Nat))) : context :=
  recs.foldl step_record ctx

/-! ## Memory before the record buffers -/

/-- Two sets of streams that differ at most in what memory holds before the
record buffers: same number of streams, same sizes, address lists and
parameters, same words at every index from 0 on. -/
def same_records (cs cs2 : List context) : Prop :=
  cs.length = cs2.length ∧
  ∀ k, (ctxAt cs k).sz = (ctxAt cs2 k).sz ∧
    (ctxAt cs k).gpuaddrs = (ctxAt cs2 k).gpuaddrs ∧
    (ctxAt cs k).ngpuaddrs = (ctxAt cs2 k).ngpuaddrs ∧
    (ctxAt cs k).params = (ctxAt cs2 k).params ∧
    (ctxAt cs k).nparams = (ctxAt cs2 k).nparams ∧
    ∀ n : Int, 0 ≤ n → (ctxAt cs k).buf n = (ctxAt cs2 k).buf n

/-- A check along the word loop of `handle_hexdump` (same arguments as
`hexdump_loop`): at every iteration the local index is not negative, the
global index is above every stream's offset when `adjust_offsets` is called
and has reached every offset of the vector it returns.  When it holds, no
iteration reads a word before a record buffer. -/
def reads_from_zero (cs : List context) (idx : Nat) :
    Nat → Int → Int → List Int → Bool
  | 0, _, _, _ => true
  | n + 1, i, offset, offsets =>
    decide (0 ≤ i) &&
    (List.range cs.length).all (fun m => decide (offAt offsets m + 1 ≤ i + offset)) &&
    (List.range cs.length).all (fun m =>
      decide (offAt (adjust_offsets cs (i + offset) offsets) m ≤
        i + offAt (adjust_offsets cs (i + offset) offsets) idx)) &&
    reads_from_zero cs idx n (i + 1) (offAt (adjust_offsets cs (i + offset) offsets) idx)
      (adjust_offsets cs (i + offset) offsets)

/-! ## Scenarios -/

/-- A stream that read a GPU-address record announcing `0x7c000275` (with
length word `0x1000`) and then a one-word command-stream record holding
`0x7c000275`. -/
def addr_stream : context :=
  load_record (handle_gpuaddr (load_record context.zero 8 (mem 0 [0x7c000275, 0x1000])))
    4 (mem 0 [0x7c000275])

/-- A stream with no announced address whose command-stream record is the
single word `w`. -/
def plain_stream (w : Nat) : context :=
  load_record context.zero 4 (mem 0 [w])

/-- A stream that announced the address `w` and whose command-stream record
is the single word `w`. -/
def known_stream (w : Nat) : context :=
  load_record (handle_gpuaddr (load_record context.zero 8 (mem 0 [w, 0]))) 4 (mem 0 [w])

/-- Stream A of the insertion scenario: the command-stream record
`[0x11111111, 0x22222222, 0x33333333]`; `pre` is the word that memory holds
just before the record buffer. -/
def stream_A (pre : Nat) : context :=
  load_record context.zero 12 (mem pre [0x11111111, 0x22222222, 0x33333333])

/-- Stream B of the insertion scenario: the record of stream A with the extra
word `0x99999999` at position 1. -/
def stream_B (pre : Nat) : context :=
  load_record context.zero 16 (mem pre [0x11111111, 0x99999999, 0x22222222, 0x33333333])

/-- The size of the local arrays `pmasks`, `pcolors` and `pnames` of
`handle_hexdump`. -/
def pmasks_size : Nat := 4

/-- Whether the parameter loop of `handle_hexdump` stores an entry past the
end of `pmasks`, `pcolors` and `pnames`: entry `n` goes to index `n`, and
the arrays hold `pmasks_size` entries. -/
def param_store_overflow (ctx : context) (dword : Nat) : Bool :=
  decide (pmasks_size < (param_matches ctx dword).length)

/-- A stream that read five parameter records of value 1920 and length 16
(types 0 to 4) and then a one-word command-stream record holding 1920. -/
def five_params_stream : context :=
  run_records context.zero
    [(sect.param, 12, mem 0 [0, 1920, 16]), (sect.param, 12, mem 0 [1, 1920, 16]),
     (sect.param, 12, mem 0 [2, 1920, 16]), (sect.param, 12, mem 0 [3, 1920, 16]),
     (sect.param, 12, mem 0 [4, 1920, 16]), (sect.cmdstream, 4, mem 0 [1920])]

/-! ## The depth of the recursion of find_rank -/

/-- The smallest `ctxts[k].sz/4 + offsets[k]` over the streams (for at least
one stream): the global index at which the first stream is exhausted. -/
def min_end (cs : List context) (offsets : List Int) : Int :=
  (List.range cs.length).foldl
    (fun m k => min m ((ctxAt cs k).sz.tdiv 4 + offAt offsets k))
    ((ctxAt cs 0).sz.tdiv 4 + offAt offsets 0)

/-- The number of recursive calls `find_rank(i, offsets)` makes before it
reaches its base case, counted along the recursion of the source with a bound
`fuel` on the depth; `none` when the bound is reached first. -/
def rank_depth (cs : List context) (offsets : List Int) : Nat → Int → Option Nat
  | 0, i => if past_end cs i offsets then some 0 else none
  | fuel + 1, i =>
    if past_end cs i offsets then some 0
    else (rank_depth cs offsets fuel (i + 1)).map (fun d => d + 1)

/-! ## The offsets vector along the word loop -/

/-- The word loop of `handle_hexdump` (same arguments as `hexdump_loop`)
seen from its vector: for each iteration the global index `i + offset` at
which the word is rendered and the content of `offsets` at that point. -/
def hexdump_trace (cs : List context) (idx : Nat) :
    Nat → Int → Int → List Int → List (Int × List Int)
  | 0, _, _, _ => []
  | n + 1, i, offset, offsets =>
    (i + offAt (adjust_offsets cs (i + offset) offsets) idx,
      adjust_offsets cs (i + offset) offsets) ::
    hexdump_trace cs idx n (i + 1) (offAt (adjust_offsets cs (i + offset) offsets) idx)
      (adjust_offsets cs (i + offset) offsets)

/-- The global indices and vectors of the scan `handle_hexdump(&ctxts[idx])`. -/
def scan_trace (cs : List context) (idx : Nat) : List (Int × List Int) :=
  hexdump_trace cs idx ((ctxAt cs idx).sz.tdiv 4).toNat 0 0 zero_offsets

/-- The content of `offsets` when the word loop of `handle_hexdump` ends. -/
def hexdump_final (cs : List context) (idx : Nat) :
    Nat → Int → Int → List Int → List Int
  | 0, _, _, offsets => offsets
  | n + 1, i, offset, offsets =>
    hexdump_final cs idx n (i + 1) (offAt (adjust_offsets cs (i + offset) offsets) idx)
      (adjust_offsets cs (i + offset) offsets)

/-- The content of `offsets` at the end of `handle_hexdump(&ctxts[idx])`. -/
def scan_final (cs : List context) (idx : Nat) : List Int :=
  hexdump_final cs idx ((ctxAt cs idx).sz.tdiv 4).toNat 0 0 zero_offsets

/-- The vector after `adjust_offsets` has been called at the global indices
`i, i + 1, ..., i + n - 1` in turn, starting from `offsets`. -/
def plain_calls (cs : List context) : Nat → Int → List Int → List Int
  | 0, _, offsets => offsets
  | n + 1, i, offsets => plain_calls cs n (i + 1) (adjust_offsets cs i offsets)

/-- The number of filler lines `handle_hexdump` prints, given its iterations. -/
def filler_count (ws : List word_out) : Nat :=
  (ws.map (fun w => w.fillers.toNat)).sum

/-- Stream A of the repeated-word scenario: the record `a, d` with
`a = 0x11111111` and `d = 0x44444444`. -/
def stream_short : context :=
  load_record context.zero 8 (mem 0 [0x11111111, 0x44444444])

/-- Stream B of the repeated-word scenario: the record `a, a, a, d`. -/
def stream_long : context :=
  load_record context.zero 16 (mem 0 [0x11111111, 0x11111111, 0x11111111, 0x44444444])

/-! ## The buffer of a record and the indices read from it -/

/-- The word index `i - offsets[k]` at which `find_rank` and `find_pattern`
read `ctxts[k].buf` for the global index `i`. -/
def read_index (i : Int) (offsets : List Int) (k : Nat) : Int :=
  i - offAt offsets k

/-- Whether the four bytes of word `n` lie inside the buffer
`calloc(1, ctx->sz + 1 + 20)` that `main` allocates for the record. -/
def in_buffer (ctx : context) (n : Int) : Bool :=
  decide (0 ≤ n ∧ 4 * n + 4 ≤ ctx.sz + 1 + 20)

/-- A stream with no announced address whose command-stream record is ten
times the word `0x22222222`. -/
def stream_ten : context :=
  load_record context.zero 40 (mem 0 (List.replicate 10 0x22222222))

/-! ## The loop of main -/

/-- The first `for` loop of an iteration of `main`, over the streams left to
visit, each with its context and the records still in its file; the first
argument is `row_type` (`none` for `RD_NONE`).  A stream at end of file keeps
`ctx->sz = 0` and its `buf`, which the source has freed and frees again at the
next iteration (the effect of that second `free` is outside the embedding);
a stream with a record sets `row_type` if it is still `RD_NONE` and,
`if (type == row_type)`, takes the record; the outer `none` is the
`return -1` on an unexpected type. -/
def read_row : Option sect → List (context × List (sect × Int × (Int → Nat))) →
    Option (Option sect × List (context × List (sect × Int × (Int → Nat))))
  | row_type, [] => some (row_type, [])
  | row_type, (ctx, []) :: rest =>
    (read_row row_type rest).map (fun p => (p.1, ({ ctx with sz := 0 }, []) :: p.2))
  | row_type, (ctx, r :: more) :: rest =>
    if r.1 = row_type.getD r.1 then
      (read_row (some (row_type.getD r.1)) rest).map
        (fun p => (p.1, (load_record ctx r.2.1 r.2.2, more) :: p.2))
    else none

/-- The test `if (ctx->sz > 0)` of the second `for` loop of `main`, per stream. -/
def handled (ss : List (context × List (sect × Int × (Int → Nat)))) : List Bool :=
  ss.map (fun s => decide (s.1.sz > 0))

/-- The second `for` loop of an iteration of `main`: `sect_handlers[row_type]`
runs on each stream that has `ctx->sz > 0`. -/
def handle_row (t : sect) (ss : List (context × List (sect × Int × (Int → Nat)))) :
    List (context × List (sect × Int × (Int → Nat))) :=
  ss.map (fun s => if s.1.sz > 0 then (sect_state t s.1, s.2) else s)

/-- What a run of `main` leaves: the table rows printed (the row type and,
per stream, whether its handler ran), the exit status (`none` when the bound
on the iterations was too small) and the streams with their unread records. -/
structure main_result where
  rows : List (sect × List Bool)
  status : Option Int
  rest : List (context × List (sect × Int × (Int → Nat)))

/-- The `do ... while (n > 0)` loop of `main` on an explicit bound for the
number of iterations: `break` when `row_type` is still `RD_NONE` after the
reads, one row otherwise, and another iteration iff some handler ran. -/
def main_loop : Nat → List (context × List (sect × Int × (Int → Nat))) → main_result
  | 0, ss => ⟨[], none, ss⟩
  | fuel + 1, ss =>
    match read_row none ss with
    | none => ⟨[], some (-1), ss⟩
    | some (none, ss1) => ⟨[], some 0, ss1⟩
    | some (some t, ss1) =>
      if (handled ss1).any id then
        ⟨(t, handled ss1) :: (main_loop fuel (handle_row t ss1)).rows,
          (main_loop fuel (handle_row t ss1)).status,
          (main_loop fuel (handle_row t ss1)).rest⟩
      else ⟨[(t, handled ss1)], some 0, handle_row t ss1⟩

/-- The number of records the streams still hold. -/
def records_left (ss : List (context × List (sect × Int × (Int → Nat)))) : Nat :=
  (ss.map (fun s => s.2.length)).sum

/-- The function `main` on the record lists of its input files: every
context starts zeroed, and the loop runs with a bound it cannot reach (each
iteration but the last reads a record). -/
def main (ins : List (List (sect × Int × (Int → Nat)))) : main_result :=
  main_loop (records_left (ins.map (fun inp => (context.zero, inp))) + 1)
    (ins.map (fun inp => (context.zero, inp)))

/-- Two input files that each hold an empty flush record and then a
parameter record (type 0, value 1920, 16 bits). -/
def flush_first_inputs : List (List (sect × Int × (Int → Nat))) :=
  [[(sect.flush, 0, mem 0 []), (sect.param, 12, mem 0 [0, 1920, 16])],
   [(sect.flush, 0, mem 0 []), (sect.param, 12, mem 0 [0, 1920, 16])]]

/-- A stream that read the parameter record `(type 0 "surface width", value
`0x780`, bitlen 16)` and then a one-word command-stream record holding
`0x12340780`. -/
def tagged_stream : context :=
  run_records context.zero
    [(sect.param, 12, mem 0 [0, 0x780, 16]), (sect.cmdstream, 4, mem 0 [0x12340780])]

/-- The number of elements of `pmasks` that the loop
`for (j = 0; j < nparams; j++) if (mask & pmasks[j]) { ...; break; }` of byte
`k` reads: up to and including the first one that covers the byte, all
`nparams` of them when none does. -/
def pmask_reads (pm : List (Nat × Nat × String)) (k : Nat) : Nat :=
  match pm.findIdx? (fun e => (0xff000000 >>> (8 * k)) &&& e.1 != 0) with
  | some j => j + 1
  | none => pm.length

/-! # Properties

## find_pattern -/

theorem pattern_found_iff (cs : List context) (dword : Nat) (i : Int) (offsets : List Int)
    (pattern : Nat) :
    pattern_found cs dword i offsets pattern = true ↔
      ∀ k, k < cs.length → dword &&& pattern = wordAt cs k i offsets &&& pattern := by
  simp [pattern_found, List.all_eq_true]

theorem pattern_found_false_iff (cs : List context) (dword : Nat) (i : Int)
    (offsets : List Int) (pattern : Nat) :
    ¬ pattern_found cs dword i offsets pattern = true ↔
      ∃ k, k < cs.length ∧ dword &&& pattern ≠ wordAt cs k i offsets &&& pattern := by
  rw [pattern_found_iff]; push_neg; rfl

theorem find_pattern_eq_iff (cs : List context) (dword : Nat) (i : Int) (offsets : List Int)
    (j : Nat) :
    find_pattern cs dword i offsets = (j : Int) ↔
      j < patterns.length ∧ pattern_found cs dword i offsets (patterns.getD j 0) = true ∧
      ∀ j2, j2 < j → ¬ pattern_found cs dword i offsets (patterns.getD j2 0) = true := by
  unfold find_pattern
  cases h : (List.range patterns.length).find?
      (fun j => pattern_found cs dword i offsets (patterns.getD j 0)) with
  | none =>
    rw [List.find?_eq_none] at h
    constructor
    · intro h1; simp at h1
    · rintro ⟨h1, h2, -⟩
      exact absurd h2 (h j (List.mem_range.mpr h1))
  | some j0 =>
    rw [List.find?_range_eq_some] at h
    obtain ⟨h1, h2, h3⟩ := h
    simp only [Nat.cast_inj]
    constructor
    · rintro rfl
      refine ⟨List.mem_range.mp h2, h1, ?_⟩
      intro j2 hj2; simpa using h3 j2 hj2
    · rintro ⟨_, h5, h6⟩
      rcases Nat.lt_trichotomy j0 j with hlt | heq | hgt
      · exact absurd h1 (h6 j0 hlt)
      · exact heq
      · have h7 := h3 j hgt
        rw [h5] at h7
        exact absurd h7 (by decide)

theorem find_pattern_neg_iff (cs : List context) (dword : Nat) (i : Int) (offsets : List Int) :
    find_pattern cs dword i offsets = -1 ↔
      ∀ j, j < patterns.length → ¬ pattern_found cs dword i offsets (patterns.getD j 0) = true := by
  unfold find_pattern
  cases h : (List.range patterns.length).find?
      (fun j => pattern_found cs dword i offsets (patterns.getD j 0)) with
  | none =>
    rw [List.find?_eq_none] at h
    simp only [true_iff]
    intro j hj; exact h j (List.mem_range.mpr hj)
  | some j0 =>
    rw [List.find?_range_eq_some] at h
    obtain ⟨h1, h2, h3⟩ := h
    constructor
    · intro h4; simp at h4
    · intro h4; exact absurd h1 (h4 j0 (List.mem_range.mp h2))

theorem find_pattern_range (cs : List context) (dword : Nat) (i : Int) (offsets : List Int) :
    find_pattern cs dword i offsets = -1 ∨
      ∃ j : Nat, j < patterns.length ∧ find_pattern cs dword i offsets = (j : Int) := by
  unfold find_pattern
  cases h : (List.range patterns.length).find?
      (fun j => pattern_found cs dword i offsets (patterns.getD j 0)) with
  | none => left; rfl
  | some j0 =>
    right
    rw [List.find?_range_eq_some] at h
    exact ⟨j0, List.mem_range.mp h.2.1, rfl⟩

/-- Claim C1.  `find_pattern` returns the mask index `j` exactly when every
stream's word at its adjusted index agrees with `dword` under `patterns[j]`
and under every earlier mask some stream disagrees; it returns `-1` exactly
when no one of the 11 masks is agreed on by all streams; and it returns
nothing else. -/
theorem find_pattern_first_shared_mask (cs : List context) (dword : Nat) (i : Int)
    (offsets : List Int) :
    (∀ j : Nat, find_pattern cs dword i offsets = (j : Int) ↔
      j < 11 ∧
      (∀ k, k < cs.length →
        dword &&& patterns.getD j 0 = wordAt cs k i offsets &&& patterns.getD j 0) ∧
      (∀ j2, j2 < j → ∃ k, k < cs.length ∧
        dword &&& patterns.getD j2 0 ≠ wordAt cs k i offsets &&& patterns.getD j2 0)) ∧
    (find_pattern cs dword i offsets = -1 ↔
      ∀ j, j < 11 → ∃ k, k < cs.length ∧
        dword &&& patterns.getD j 0 ≠ wordAt cs k i offsets &&& patterns.getD j 0) ∧
    (find_pattern cs dword i offsets = -1 ∨
      ∃ j : Nat, j < 11 ∧ find_pattern cs dword i offsets = (j : Int)) := by
  refine ⟨fun j => ?_, ?_, find_pattern_range cs dword i offsets⟩
  · rw [find_pattern_eq_iff, pattern_found_iff]
    simp only [pattern_found_false_iff]
    rfl
  · rw [find_pattern_neg_iff]
    simp only [pattern_found_false_iff]
    rfl

/-! ## find_gpuaddr -/

theorem find_gpuaddr_eq_iff (ctx : context) (dword : Nat) (n : Nat) :
    find_gpuaddr ctx dword = (n : Int) ↔
      n < ctx.ngpuaddrs ∧ ctx.gpuaddrs.getD n 0 = dword ∧
      ∀ m, m < n → ctx.gpuaddrs.getD m 0 ≠ dword := by
  unfold find_gpuaddr
  cases h : (List.range ctx.ngpuaddrs).find? (fun i => dword == ctx.gpuaddrs.getD i 0) with
  | none =>
    rw [List.find?_eq_none] at h
    constructor
    · intro h1; simp at h1
    · rintro ⟨h1, h2, -⟩
      have h3 := h n (List.mem_range.mpr h1)
      rw [h2] at h3
      exact absurd (beq_self_eq_true dword) h3
  | some n0 =>
    rw [List.find?_range_eq_some] at h
    obtain ⟨h1, h2, h3⟩ := h
    simp only [Nat.cast_inj]
    have h1x : dword = ctx.gpuaddrs.getD n0 0 := by simpa using h1
    constructor
    · rintro rfl
      refine ⟨List.mem_range.mp h2, h1x.symm, ?_⟩
      intro m hm hc
      have h4 := h3 m hm
      rw [hc] at h4
      simp at h4
    · rintro ⟨_, h5, h6⟩
      rcases Nat.lt_trichotomy n0 n with hlt | heq | hgt
      · exact absurd h1x.symm (h6 n0 hlt)
      · exact heq
      · have h7 := h3 n hgt
        rw [h5] at h7
        simp at h7

theorem find_gpuaddr_neg_iff (ctx : context) (dword : Nat) :
    find_gpuaddr ctx dword = -1 ↔
      ∀ m, m < ctx.ngpuaddrs → ctx.gpuaddrs.getD m 0 ≠ dword := by
  unfold find_gpuaddr
  cases h : (List.range ctx.ngpuaddrs).find? (fun i => dword == ctx.gpuaddrs.getD i 0) with
  | none =>
    rw [List.find?_eq_none] at h
    simp only [true_iff]
    intro m hm hc
    have h3 := h m (List.mem_range.mpr hm)
    rw [hc] at h3
    exact absurd (beq_self_eq_true dword) h3
  | some n0 =>
    rw [List.find?_range_eq_some] at h
    obtain ⟨h1, h2, -⟩ := h
    have h1x : dword = ctx.gpuaddrs.getD n0 0 := by simpa using h1
    constructor
    · intro h4; simp at h4
    · intro h4; exact absurd h1x.symm (h4 n0 (List.mem_range.mp h2))

theorem find_gpuaddr_range (ctx : context) (dword : Nat) :
    find_gpuaddr ctx dword = -1 ∨
      ∃ n : Nat, n < ctx.ngpuaddrs ∧ find_gpuaddr ctx dword = (n : Int) := by
  unfold find_gpuaddr
  cases h : (List.range ctx.ngpuaddrs).find? (fun i => dword == ctx.gpuaddrs.getD i 0) with
  | none => left; rfl
  | some n0 =>
    right
    rw [List.find?_range_eq_some] at h
    exact ⟨n0, List.mem_range.mp h.2.1, rfl⟩

/-! ## find_rank -/

theorem past_end_iff (cs : List context) (i : Int) (offsets : List Int) :
    past_end cs i offsets = true ↔
      ∃ k, k < cs.length ∧ (ctxAt cs k).sz.tdiv 4 + offAt offsets k ≤ i := by
  simp [past_end, List.any_eq_true]

theorem not_past_end_iff (cs : List context) (i : Int) (offsets : List Int) :
    ¬ past_end cs i offsets = true ↔
      ∀ k, k < cs.length → i < (ctxAt cs k).sz.tdiv 4 + offAt offsets k := by
  rw [past_end_iff]; push_neg; rfl

/-- With at least one stream, `find_rank` satisfies the recursion of the
source: 0 past the end, else the rank of the position plus half the rank of
the rest. -/
theorem find_rank_unfold (cs : List context) (i : Int) (offsets : List Int)
    (hne : 0 < cs.length) :
    find_rank cs i offsets =
      if past_end cs i offsets then 0
      else rank_at cs i offsets + (find_rank cs (i + 1) offsets).tdiv 2 := by
  unfold find_rank
  by_cases hp : past_end cs i offsets = true
  · rw [if_pos hp]
    cases rank_fuel cs i offsets with
    | zero => rfl
    | succ n => simp [find_rank_aux, hp]
  · rw [if_neg hp]
    have h0 := (not_past_end_iff cs i offsets).mp hp 0 hne
    have hf : rank_fuel cs i offsets = rank_fuel cs (i + 1) offsets + 1 := by
      unfold rank_fuel; omega
    rw [hf]
    simp [find_rank_aux, hp]

/-! ## adjust_offsets -/

theorem offAt_set_ne (l : List Int) (k m : Nat) (v : Int) (h : k ≠ m) :
    offAt (l.set k v) m = offAt l m := by
  simp [offAt, List.getD_eq_getElem?_getD, List.getElem?_set_ne h]

theorem offAt_set_eq (l : List Int) (k : Nat) (v : Int) (h : k < l.length) :
    offAt (l.set k v) k = v := by
  simp [offAt, List.getD_eq_getElem?_getD, h]

theorem set_short (l : List Int) (k : Nat) (v : Int) (h : l.length ≤ k) :
    l.set k v = l := by
  exact List.set_eq_of_length_le h

theorem set_offAt_self (l : List Int) (k : Nat) : l.set k (offAt l k) = l := by
  by_cases h : k < l.length
  · apply List.ext_getElem
    · simp
    · intro n h1 h2
      by_cases hn : k = n
      · subst hn
        simp [offAt, List.getD_eq_getElem?_getD, h]
      · simp [List.getElem_set_ne hn]
  · exact set_short l k _ (by omega)

theorem set_restore (l : List Int) (k : Nat) :
    (l.set k (offAt l k + 1)).set k (offAt (l.set k (offAt l k + 1)) k - 1) = l := by
  by_cases h : k < l.length
  · rw [offAt_set_eq l k _ h, List.set_set]
    have : offAt l k + 1 - 1 = offAt l k := by omega
    rw [this, set_offAt_self]
  · rw [set_short l k _ (by omega), set_short l k _ (by omega)]

/-- The state invariant of the loop of `adjust_offsets`: `new_offsets` is a
copy of `offsets` and `rank` is the rank of `offsets`. -/
theorem adjust_step_cases (cs : List context) (i : Int) (st : List Int × List Int × Int)
    (k : Nat) (h1 : st.2.1 = st.1) (h2 : st.2.2 = find_rank cs i st.1) :
    (adjust_step cs i st k = st ∧
      ¬ (eligible cs st.1 k = true ∧
        find_rank cs i (st.1.set k (offAt st.1 k + 1)) > find_rank cs i st.1)) ∨
    (adjust_step cs i st k =
        (st.1.set k (offAt st.1 k + 1), st.1.set k (offAt st.1 k + 1),
          find_rank cs i (st.1.set k (offAt st.1 k + 1))) ∧
      eligible cs st.1 k = true ∧
      find_rank cs i (st.1.set k (offAt st.1 k + 1)) > find_rank cs i st.1) := by
  obtain ⟨o, n, r⟩ := st
  simp only at h1 h2
  subst h1 h2
  unfold adjust_step
  by_cases he : eligible cs n k = true
  · by_cases hr : find_rank cs i (n.set k (offAt n k + 1)) > find_rank cs i n
    · right
      simp [he, hr]
    · left
      refine ⟨?_, fun h => hr h.2⟩
      simp only [he, hr, if_true, if_false, set_restore]
  · left
    refine ⟨?_, fun h => he h.1⟩
    rw [if_neg he]

theorem adjust_fold_spec (cs : List context) (i : Int) :
    ∀ (ks : List Nat) (st : List Int × List Int × Int),
      st.2.1 = st.1 → st.2.2 = find_rank cs i st.1 →
      (ks.foldl (adjust_step cs i) st).2.1 = (ks.foldl (adjust_step cs i) st).1 ∧
      (ks.foldl (adjust_step cs i) st).2.2 =
        find_rank cs i (ks.foldl (adjust_step cs i) st).1 ∧
      ((ks.foldl (adjust_step cs i) st).1 = st.1 ∨
        find_rank cs i (ks.foldl (adjust_step cs i) st).1 > find_rank cs i st.1) ∧
      ((ks.foldl (adjust_step cs i) st).1 = st.1 ↔
        ∀ k, k ∈ ks → ¬ (eligible cs st.1 k = true ∧
          find_rank cs i (st.1.set k (offAt st.1 k + 1)) > find_rank cs i st.1)) ∧
      (ks.Nodup → ∀ m, offAt (ks.foldl (adjust_step cs i) st).1 m = offAt st.1 m ∨
        (m ∈ ks ∧ offAt (ks.foldl (adjust_step cs i) st).1 m = offAt st.1 m + 1)) := by
  intro ks
  induction ks with
  | nil =>
    intro st h1 h2
    simp [h1, h2]
  | cons k0 rest ih =>
    intro st h1 h2
    rw [List.foldl_cons]
    rcases adjust_step_cases cs i st k0 h1 h2 with ⟨hs, hno⟩ | ⟨hs, hel, himp⟩
    · rw [hs]
      obtain ⟨a, b, c, d, e⟩ := ih st h1 h2
      refine ⟨a, b, c, ?_, ?_⟩
      · rw [d]
        constructor
        · intro h k hk
          rcases List.mem_cons.mp hk with rfl | hk
          · exact hno
          · exact h k hk
        · intro h k hk
          exact h k (List.mem_cons_of_mem _ hk)
      · intro hnd m
        rcases e (List.nodup_cons.mp hnd).2 m with h | ⟨h, h3⟩
        · left; exact h
        · right; exact ⟨List.mem_cons_of_mem _ h, h3⟩
    · rw [hs]
      have hlen : k0 < st.1.length := by
        by_contra hc
        rw [set_short st.1 k0 _ (by omega)] at himp
        exact lt_irrefl _ himp
      obtain ⟨a, b, c, -, e⟩ := ih
        (st.1.set k0 (offAt st.1 k0 + 1), st.1.set k0 (offAt st.1 k0 + 1),
          find_rank cs i (st.1.set k0 (offAt st.1 k0 + 1))) rfl rfl
      have hgt : find_rank cs i (List.foldl (adjust_step cs i)
          (st.1.set k0 (offAt st.1 k0 + 1), st.1.set k0 (offAt st.1 k0 + 1),
            find_rank cs i (st.1.set k0 (offAt st.1 k0 + 1))) rest).1 >
          find_rank cs i st.1 := by
        rcases c with h | h
        · rw [h]; exact himp
        · exact lt_trans himp h
      have hne : (List.foldl (adjust_step cs i)
          (st.1.set k0 (offAt st.1 k0 + 1), st.1.set k0 (offAt st.1 k0 + 1),
            find_rank cs i (st.1.set k0 (offAt st.1 k0 + 1))) rest).1 ≠ st.1 := by
        intro h
        rw [h] at hgt
        exact lt_irrefl _ hgt
      refine ⟨a, b, Or.inr hgt, ?_, ?_⟩
      · constructor
        · intro h; exact absurd h hne
        · intro h
          exact absurd ⟨hel, himp⟩ (h k0 (List.mem_cons_self _ _))
      · intro hnd m
        have hnd2 := List.nodup_cons.mp hnd
        rcases e hnd2.2 m with h | ⟨h, h3⟩
        · by_cases hm : k0 = m
          · subst hm
            right
            refine ⟨List.mem_cons_self _ _, ?_⟩
            rw [h]
            exact offAt_set_eq _ _ _ hlen
          · left
            rw [h]
            exact offAt_set_ne _ _ _ _ hm
        · have hm : k0 ≠ m := by
            rintro rfl
            exact hnd2.1 h
          right
          refine ⟨List.mem_cons_of_mem _ h, ?_⟩
          rw [h3]
          simp only
          rw [offAt_set_ne _ _ _ _ hm]

/-- Claim C3.  Every entry of the vector `adjust_offsets` returns is the input
entry or the input entry plus one, and the vector differs from the input only
if `find_rank` at `i` is strictly greater under the result than under the
input. -/
theorem adjust_offsets_never_decreases (cs : List context) (i : Int) (offsets : List Int) :
    (∀ k, offAt (adjust_offsets cs i offsets) k = offAt offsets k ∨
      offAt (adjust_offsets cs i offsets) k = offAt offsets k + 1) ∧
    (∀ k, offAt offsets k ≤ offAt (adjust_offsets cs i offsets) k) ∧
    (adjust_offsets cs i offsets ≠ offsets →
      find_rank cs i (adjust_offsets cs i offsets) > find_rank cs i offsets) := by
  obtain ⟨-, -, c, -, e⟩ := adjust_fold_spec cs i (List.range cs.length)
    (offsets, offsets, find_rank cs i offsets) rfl rfl
  have h1 : ∀ k, offAt (adjust_offsets cs i offsets) k = offAt offsets k ∨
      offAt (adjust_offsets cs i offsets) k = offAt offsets k + 1 := by
    intro k
    rcases e (List.nodup_range _) k with h | ⟨-, h⟩
    · left; exact h
    · right; exact h
  refine ⟨h1, ?_, ?_⟩
  · intro k
    rcases h1 k with h | h <;> omega
  · intro hne
    rcases c with h | h
    · exact absurd h hne
    · exact h

/-- Claim C9.  The vector comes back unchanged from `adjust_offsets` exactly
when no eligible stream `k` (one with `sz_k/4 + offsets[k] < max_sz/4`) has a
strictly greater `find_rank` at `i` with its entry incremented by one; and a
call that returned its input unchanged does so again when repeated. -/
theorem adjust_offsets_unchanged_iff (cs : List context) (i : Int) (offsets : List Int) :
    (adjust_offsets cs i offsets = offsets ↔
      ¬ ∃ k, k < cs.length ∧
        (ctxAt cs k).sz.tdiv 4 + offAt offsets k < (max_sz cs).tdiv 4 ∧
        find_rank cs i (offsets.set k (offAt offsets k + 1)) > find_rank cs i offsets) ∧
    (adjust_offsets cs i offsets = offsets →
      adjust_offsets cs i (adjust_offsets cs i offsets) = adjust_offsets cs i offsets) := by
  obtain ⟨-, -, -, d, -⟩ := adjust_fold_spec cs i (List.range cs.length)
    (offsets, offsets, find_rank cs i offsets) rfl rfl
  constructor
  · unfold adjust_offsets
    rw [d]
    simp only [eligible, decide_eq_true_eq, List.mem_range]
    constructor
    · rintro h ⟨k, hk, h1, h2⟩
      exact h k hk ⟨h1, h2⟩
    · intro h k hk h1
      exact h ⟨k, hk, h1⟩
  · intro h
    rw [h, h]

/-! ## handle_flush -/

theorem ctxAt_set_ne (cs : List context) (idx k : Nat) (c : context) (h : idx ≠ k) :
    ctxAt (cs.set idx c) k = ctxAt cs k := by
  simp [ctxAt, List.getD_eq_getElem?_getD, List.getElem?_set_ne h]

theorem ctxAt_set_eq (cs : List context) (idx : Nat) (c : context) (h : idx < cs.length) :
    ctxAt (cs.set idx c) idx = c := by
  simp [ctxAt, List.getD_eq_getElem?_getD, h]

/-- Claim C6.  `handle_flush` on stream `idx` sets that stream's `nparams` to
zero and changes nothing else: the stream keeps its parameter array, its
GPU-address list and count, its record buffer and size, every other stream is
unchanged, and the number of streams is the same. -/
theorem handle_flush_frame (cs : List context) (idx : Nat) :
    (idx < cs.length → (ctxAt (dispatch handle_flush cs idx) idx).nparams = 0) ∧
    (ctxAt (dispatch handle_flush cs idx) idx).params = (ctxAt cs idx).params ∧
    (ctxAt (dispatch handle_flush cs idx) idx).gpuaddrs = (ctxAt cs idx).gpuaddrs ∧
    (ctxAt (dispatch handle_flush cs idx) idx).ngpuaddrs = (ctxAt cs idx).ngpuaddrs ∧
    (ctxAt (dispatch handle_flush cs idx) idx).buf = (ctxAt cs idx).buf ∧
    (ctxAt (dispatch handle_flush cs idx) idx).sz = (ctxAt cs idx).sz ∧
    (∀ k, k ≠ idx → ctxAt (dispatch handle_flush cs idx) k = ctxAt cs k) ∧
    (dispatch handle_flush cs idx).length = cs.length := by
  have hne : ∀ k, k ≠ idx → ctxAt (dispatch handle_flush cs idx) k = ctxAt cs k :=
    fun k hk => ctxAt_set_ne cs idx k _ (Ne.symm hk)
  have hlen : (dispatch handle_flush cs idx).length = cs.length := by
    simp [dispatch]
  by_cases h : idx < cs.length
  · have heq : ctxAt (dispatch handle_flush cs idx) idx = handle_flush (ctxAt cs idx) :=
      ctxAt_set_eq cs idx _ h
    rw [heq]
    exact ⟨fun _ => rfl, rfl, rfl, rfl, rfl, rfl, hne, hlen⟩
  · have heq : dispatch handle_flush cs idx = cs := by
      unfold dispatch
      exact List.set_eq_of_length_le (by omega)
    rw [heq]
    exact ⟨fun h1 => absurd h1 h, rfl, rfl, rfl, rfl, rfl, fun _ _ => rfl, rfl⟩

/-! ## The rank of one position -/

theorem all_gpuaddr_iff (cs : List context) (j : Int) (i : Int) (offsets : List Int) :
    all_gpuaddr cs j i offsets = true ↔
      ∀ k, k < cs.length → find_gpuaddr (ctxAt cs k) (wordAt cs k i offsets) = j := by
  simp only [all_gpuaddr, List.all_eq_true, List.mem_range, beq_iff_eq]
  constructor
  · intro h k hk; exact (h k hk).symm
  · intro h k hk; exact (h k hk).symm

theorem patterns_length : (patterns.length : Int) = 11 := by decide

/-- The rank of a position where all streams resolve their word to the same
index of their address lists. -/
theorem rank_at_same_gpuaddr (cs : List context) (i : Int) (offsets : List Int) (j : Nat)
    (hne : 0 < cs.length)
    (hj : ∀ k, k < cs.length →
      find_gpuaddr (ctxAt cs k) (wordAt cs k i offsets) = (j : Int)) :
    rank_at cs i offsets = 11 := by
  unfold rank_at
  have h0 := hj 0 hne
  simp only [h0]
  rw [if_pos (by omega), if_pos ((all_gpuaddr_iff cs _ i offsets).mpr hj)]
  exact patterns_length

/-- Claim C8, as the code has it.  At a position where no stream is exhausted
and every stream's word at its own adjusted index resolves through
`find_gpuaddr` to the same index `j`, the rank of the position is 11, the
size of the mask table (one more than 10, the best rank a shared mask gets),
and `find_rank` is 11 plus half of `find_rank` at the next index. -/
theorem rank_all_same_gpuaddr (cs : List context) (i : Int) (offsets : List Int) (j : Nat)
    (hne : 0 < cs.length)
    (hin : ∀ k, k < cs.length → i < (ctxAt cs k).sz.tdiv 4 + offAt offsets k)
    (hj : ∀ k, k < cs.length →
      find_gpuaddr (ctxAt cs k) (wordAt cs k i offsets) = (j : Int)) :
    rank_at cs i offsets = 11 ∧
    find_rank cs i offsets = 11 + (find_rank cs (i + 1) offsets).tdiv 2 := by
  have h1 := rank_at_same_gpuaddr cs i offsets j hne hj
  refine ⟨h1, ?_⟩
  rw [find_rank_unfold cs i offsets hne, if_neg ((not_past_end_iff cs i offsets).mpr hin), h1]

set_option maxRecDepth 100000 in
/-- Two streams that each announced `0x7c000275` and hold that single word:
no stream is exhausted at index 0, both resolve the word to index 0, and the
rank of position 0 is 11, as is `find_rank` there. -/
theorem rank_all_same_gpuaddr_witness :
    (∀ k, k < [addr_stream, addr_stream].length →
      (0 : Int) < (ctxAt [addr_stream, addr_stream] k).sz.tdiv 4 + offAt zero_offsets k) ∧
    (∀ k, k < [addr_stream, addr_stream].length →
      find_gpuaddr (ctxAt [addr_stream, addr_stream] k)
        (wordAt [addr_stream, addr_stream] k 0 zero_offsets) = ((0 : Nat) : Int)) ∧
    rank_at [addr_stream, addr_stream] 0 zero_offsets = 11 ∧
    find_rank [addr_stream, addr_stream] 0 zero_offsets =
      11 + (find_rank [addr_stream, addr_stream] (0 + 1) zero_offsets).tdiv 2 :=
  ⟨by decide, by decide,
    rank_all_same_gpuaddr [addr_stream, addr_stream] 0 zero_offsets 0
      (by decide) (by decide) (by decide)⟩

set_option maxRecDepth 100000 in
/-- Claim C8 as stated fails: in the two-stream scenario no stream is
exhausted at index 0 and both words resolve to address index 0, yet the rank
of the position is 11, not 12. -/
theorem rank_all_same_gpuaddr_not_twelve :
    (∀ k, k < [addr_stream, addr_stream].length →
      (0 : Int) < (ctxAt [addr_stream, addr_stream] k).sz.tdiv 4 + offAt zero_offsets k) ∧
    (∀ k, k < [addr_stream, addr_stream].length →
      find_gpuaddr (ctxAt [addr_stream, addr_stream] k)
        (wordAt [addr_stream, addr_stream] k 0 zero_offsets) = 0) ∧
    rank_at [addr_stream, addr_stream] 0 zero_offsets ≠ 11 + 1 ∧
    find_rank [addr_stream, addr_stream] 0 zero_offsets = 11 := by
  decide

theorem find_gpuaddr_nonneg_or (ctx : context) (dword : Nat) :
    find_gpuaddr ctx dword = -1 ∨ 0 ≤ find_gpuaddr ctx dword := by
  rcases find_gpuaddr_range ctx dword with h | ⟨n, -, h⟩
  · left; exact h
  · right; rw [h]; omega

/-- Claim C7, as the code has it.  For one or more streams whose records are
the same sequence of words, all offsets zero and `i` inside the record: the
rank of position `i` is 10 (mask 0, the best rank of a shared mask) when the
word is not in stream 0's address list; when it is, the rank is 11 if every
stream resolves the word to the same index as stream 0 and 0 if some stream
does not; and `find_rank` adds half of `find_rank` at the next index. -/
theorem rank_identical_records (cs : List context) (i : Int) (offsets : List Int)
    (hne : 0 < cs.length)
    (hsz : ∀ k, k < cs.length → (ctxAt cs k).sz = (ctxAt cs 0).sz)
    (hw : ∀ k, k < cs.length → ∀ m : Int, 0 ≤ m → m < (ctxAt cs 0).sz.tdiv 4 →
      (ctxAt cs k).buf m = (ctxAt cs 0).buf m)
    (hoff : ∀ k, k < cs.length → offAt offsets k = 0)
    (h0 : 0 ≤ i) (hi : i < (ctxAt cs 0).sz.tdiv 4) :
    (find_gpuaddr (ctxAt cs 0) ((ctxAt cs 0).buf i) = -1 → rank_at cs i offsets = 10) ∧
    (0 ≤ find_gpuaddr (ctxAt cs 0) ((ctxAt cs 0).buf i) →
      (∀ k, k < cs.length → find_gpuaddr (ctxAt cs k) ((ctxAt cs 0).buf i) =
        find_gpuaddr (ctxAt cs 0) ((ctxAt cs 0).buf i)) →
      rank_at cs i offsets = 11) ∧
    (0 ≤ find_gpuaddr (ctxAt cs 0) ((ctxAt cs 0).buf i) →
      (¬ ∀ k, k < cs.length → find_gpuaddr (ctxAt cs k) ((ctxAt cs 0).buf i) =
        find_gpuaddr (ctxAt cs 0) ((ctxAt cs 0).buf i)) →
      rank_at cs i offsets = 0) ∧
    find_rank cs i offsets = rank_at cs i offsets + (find_rank cs (i + 1) offsets).tdiv 2 := by
  have hword : ∀ k, k < cs.length → wordAt cs k i offsets = (ctxAt cs 0).buf i := by
    intro k hk
    unfold wordAt
    rw [hoff k hk, sub_zero]
    exact hw k hk i h0 hi
  have hall : ∀ j : Int, all_gpuaddr cs j i offsets = true ↔
      ∀ k, k < cs.length → find_gpuaddr (ctxAt cs k) ((ctxAt cs 0).buf i) = j := by
    intro j
    rw [all_gpuaddr_iff]
    constructor
    · intro h k hk; rw [← hword k hk]; exact h k hk
    · intro h k hk; rw [hword k hk]; exact h k hk
  refine ⟨?_, ?_, ?_, ?_⟩
  · intro hg
    unfold rank_at
    simp only [hword 0 hne, hg]
    have hp : find_pattern cs ((ctxAt cs 0).buf i) i offsets = ((0 : Nat) : Int) := by
      rw [find_pattern_eq_iff]
      refine ⟨by decide, ?_, fun j2 hj2 => absurd hj2 (Nat.not_lt_zero _)⟩
      rw [pattern_found_iff]
      intro k hk
      rw [hword k hk]
    rw [hp, if_neg (by decide), if_pos (by decide), patterns_length]
    decide
  · intro hg hsame
    unfold rank_at
    simp only [hword 0 hne]
    rw [if_pos hg, if_pos ((hall _).mpr hsame)]
    exact patterns_length
  · intro hg hdiff
    unfold rank_at
    simp only [hword 0 hne]
    rw [if_pos hg, if_neg (fun h => hdiff ((hall _).mp h))]
  · rw [find_rank_unfold cs i offsets hne, if_neg]
    rw [not_past_end_iff]
    intro k hk
    rw [hsz k hk, hoff k hk]
    omega

set_option maxRecDepth 100000 in
/-- Two streams holding the single word 5, neither with an announced address:
the rank of position 0 is 10. -/
theorem rank_identical_records_witness :
    rank_at [plain_stream 5, plain_stream 5] 0 zero_offsets = 10 :=
  (rank_identical_records [plain_stream 5, plain_stream 5] 0 zero_offsets
    (by decide) (by decide)
    (by intro k hk m _ _
        have hk2 : k = 0 ∨ k = 1 := by
          simp only [List.length_cons, List.length_nil] at hk; omega
        rcases hk2 with rfl | rfl <;> rfl)
    (by decide) (by decide) (by decide)).1 (by decide)

set_option maxRecDepth 100000 in
/-- Claim C7 as stated fails: two streams hold the identical one-word record
`[5]`, all offsets are zero and position 0 is inside both records, but stream
0 has announced 5 as an address and stream 1 has not; the rank of position 0
is 0, below the 10 of two streams without addresses and the 11 of two streams
that both announced it. -/
theorem rank_identical_records_not_maximal :
    (ctxAt [known_stream 5, plain_stream 5] 0).sz = 4 ∧
    (ctxAt [known_stream 5, plain_stream 5] 1).sz = 4 ∧
    (ctxAt [known_stream 5, plain_stream 5] 0).buf 0 = 5 ∧
    (ctxAt [known_stream 5, plain_stream 5] 1).buf 0 = 5 ∧
    rank_at [known_stream 5, plain_stream 5] 0 zero_offsets = 0 ∧
    find_rank [known_stream 5, plain_stream 5] 0 zero_offsets = 0 ∧
    rank_at [plain_stream 5, plain_stream 5] 0 zero_offsets = 10 ∧
    rank_at [known_stream 5, known_stream 5] 0 zero_offsets = 11 := by
  decide

/-! ## GPU-address tracking -/

theorem getD_set_ne_nat (l : List Nat) (k m : Nat) (v : Nat) (h : k ≠ m) :
    (l.set k v).getD m 0 = l.getD m 0 := by
  simp [List.getD_eq_getElem?_getD, List.getElem?_set_ne h]

theorem getD_set_eq_nat (l : List Nat) (k : Nat) (v : Nat) (h : k < l.length) :
    (l.set k v).getD k 0 = v := by
  simp [List.getD_eq_getElem?_getD, h]

/-- What one record does to the address list: the count does not shrink, the
array keeps its length and the entries below the old count are kept. -/
theorem step_record_gpuaddrs (ctx : context) (r : sect × Int × (Int → Nat)) :
    ctx.ngpuaddrs ≤ (step_record ctx r).ngpuaddrs ∧
    (step_record ctx r).gpuaddrs.length = ctx.gpuaddrs.length ∧
    ∀ m, m < ctx.ngpuaddrs → (step_record ctx r).gpuaddrs.getD m 0 = ctx.gpuaddrs.getD m 0 := by
  obtain ⟨t, sz, buf⟩ := r
  unfold step_record
  by_cases h : sz > 0
  · simp only [h, if_true]
    cases t <;>
      simp only [sect_state, handle_gpuaddr, handle_param, handle_flush, load_record,
        List.length_set, le_refl, Nat.le_succ, implies_true, true_and, and_true]
    intro m hm
    exact getD_set_ne_nat _ _ _ _ (by omega)
  · simp only [h, if_false]
    exact ⟨le_refl _, rfl, fun _ _ => rfl⟩

theorem run_records_gpuaddrs :
    ∀ (recs : List (sect × Int × (Int → Nat))) (ctx : context),
      ctx.ngpuaddrs ≤ (run_records ctx recs).ngpuaddrs ∧
      (run_records ctx recs).gpuaddrs.length = ctx.gpuaddrs.length ∧
      ∀ m, m < ctx.ngpuaddrs →
        (run_records ctx recs).gpuaddrs.getD m 0 = ctx.gpuaddrs.getD m 0 := by
  intro recs
  induction recs with
  | nil => intro ctx; exact ⟨le_refl _, rfl, fun _ _ => rfl⟩
  | cons r rest ih =>
    intro ctx
    obtain ⟨a1, a2, a3⟩ := step_record_gpuaddrs ctx r
    obtain ⟨b1, b2, b3⟩ := ih (step_record ctx r)
    unfold run_records at b1 b2 b3 ⊢
    rw [List.foldl_cons]
    refine ⟨le_trans a1 b1, b2.trans a2, fun m hm => ?_⟩
    rw [b3 m (lt_of_lt_of_le hm a1), a3 m hm]

theorem hexdump_loop_getElem (cs : List context) (idx : Nat) :
    ∀ (n : Nat) (i offset : Int) (offsets : List Int) (m : Nat), m < n →
      ∃ fill gi offs, (hexdump_loop cs idx n i offset offsets)[m]? =
        some ⟨fill, classify cs idx ((ctxAt cs idx).buf (i + m)) gi offs⟩ := by
  intro n
  induction n with
  | zero => intro i offset offsets m hm; omega
  | succ n ih =>
    intro i offset offsets m hm
    cases m with
    | zero =>
      refine ⟨offAt (adjust_offsets cs (i + offset) offsets) idx - offset,
        i + offAt (adjust_offsets cs (i + offset) offsets) idx,
        adjust_offsets cs (i + offset) offsets, ?_⟩
      simp only [hexdump_loop, List.getElem?_cons_zero, Nat.cast_zero, add_zero]
    | succ m =>
      obtain ⟨fill, gi, offs, h⟩ := ih (i + 1)
        (offAt (adjust_offsets cs (i + offset) offsets) idx)
        (adjust_offsets cs (i + offset) offsets) m (by omega)
      refine ⟨fill, gi, offs, ?_⟩
      simp only [hexdump_loop, List.getElem?_cons_succ]
      rw [h]
      have : i + 1 + (m : Int) = i + ((m + 1 : Nat) : Int) := by push_cast; ring
      rw [this]

theorem hexdump_loop_length (cs : List context) (idx : Nat) :
    ∀ (n : Nat) (i offset : Int) (offsets : List Int),
      (hexdump_loop cs idx n i offset offsets).length = n := by
  intro n
  induction n with
  | zero => intro i offset offsets; rfl
  | succ n ih => intro i offset offsets; simp [hexdump_loop, ih]

/-- The function `handle_hexdump` produces one entry per word of the record. -/
theorem handle_hexdump_length (cs : List context) (idx : Nat) :
    (handle_hexdump cs idx).length = ((ctxAt cs idx).sz.tdiv 4).toNat :=
  hexdump_loop_length cs idx _ _ _ _

theorem classify_gpuaddr (cs : List context) (idx : Nat) (dword : Nat) (gi : Int)
    (offsets : List Int) (n : Nat)
    (h : find_gpuaddr (ctxAt cs idx) dword = (n : Int)) :
    classify cs idx dword gi offsets = wordclass.gpuaddr n dword := by
  unfold classify
  simp only [h]
  rw [if_pos (by omega)]

/-- Claim C2.  Let a stream announce `A = buf[0]` as its `n`-th address
(`n = ngpuaddrs`, `A` not among the `n` earlier ones) and then read any
further records, the address list staying within its 32 entries.  Then
`find_gpuaddr` returns `n` for `A`, and in every set of streams of which it
is stream `idx`, `handle_hexdump` renders every word of its record that
equals `A` as a known address with index `n`. -/
theorem gpuaddr_tracking (ctx0 : context) (recs : List (sect × Int × (Int → Nat)))
    (hlen : ctx0.gpuaddrs.length = 32)
    (hcap : (run_records (handle_gpuaddr ctx0) recs).ngpuaddrs ≤ 32)
    (hnew : ∀ m, m < ctx0.ngpuaddrs → ctx0.gpuaddrs.getD m 0 ≠ ctx0.buf 0) :
    find_gpuaddr (run_records (handle_gpuaddr ctx0) recs) (ctx0.buf 0) = ctx0.ngpuaddrs ∧
    ∀ (cs : List context) (idx : Nat),
      ctxAt cs idx = run_records (handle_gpuaddr ctx0) recs →
      ∀ i : Nat, i < ((ctxAt cs idx).sz.tdiv 4).toNat →
        (ctxAt cs idx).buf i = ctx0.buf 0 →
        ∃ fill, (handle_hexdump cs idx)[i]? =
          some ⟨fill, wordclass.gpuaddr ctx0.ngpuaddrs (ctx0.buf 0)⟩ := by
  obtain ⟨b1, -, b3⟩ := run_records_gpuaddrs recs (handle_gpuaddr ctx0)
  have hn : ctx0.ngpuaddrs < ctx0.gpuaddrs.length := by
    have : (handle_gpuaddr ctx0).ngpuaddrs = ctx0.ngpuaddrs + 1 := rfl
    omega
  have hfind : find_gpuaddr (run_records (handle_gpuaddr ctx0) recs) (ctx0.buf 0) =
      ctx0.ngpuaddrs := by
    rw [find_gpuaddr_eq_iff]
    refine ⟨b1, ?_, ?_⟩
    · rw [b3 _ (Nat.lt_succ_self _)]
      exact getD_set_eq_nat _ _ _ hn
    · intro m hm
      rw [b3 m (Nat.lt_succ_of_lt hm)]
      show (ctx0.gpuaddrs.set ctx0.ngpuaddrs (ctx0.buf 0)).getD m 0 ≠ ctx0.buf 0
      rw [getD_set_ne_nat _ _ _ _ (by omega)]
      exact hnew m hm
  refine ⟨hfind, ?_⟩
  intro cs idx hctx i hi hw
  obtain ⟨fill, gi, offs, h⟩ := hexdump_loop_getElem cs idx
    ((ctxAt cs idx).sz.tdiv 4).toNat 0 0 zero_offsets i hi
  refine ⟨fill, ?_⟩
  unfold handle_hexdump
  rw [h, zero_add, hw, classify_gpuaddr cs idx _ gi offs ctx0.ngpuaddrs (by rw [hctx]; exact hfind)]

set_option maxRecDepth 100000 in
/-- Two streams that each announced `0x7c000275` as their first address and
then hold the one-word record `[0x7c000275]`: `find_gpuaddr` returns 0 and
both render the word as a known address with index 0. -/
theorem gpuaddr_tracking_witness :
    find_gpuaddr addr_stream 0x7c000275 = 0 ∧
    (∃ fill, (handle_hexdump [addr_stream, addr_stream] 0)[0]? =
      some ⟨fill, wordclass.gpuaddr 0 0x7c000275⟩) ∧
    (∃ fill, (handle_hexdump [addr_stream, addr_stream] 1)[0]? =
      some ⟨fill, wordclass.gpuaddr 0 0x7c000275⟩) ∧
    handle_hexdump [addr_stream, addr_stream] 0 = [⟨0, wordclass.gpuaddr 0 0x7c000275⟩] ∧
    handle_hexdump [addr_stream, addr_stream] 1 = [⟨0, wordclass.gpuaddr 0 0x7c000275⟩] :=
  have h := gpuaddr_tracking (load_record context.zero 8 (mem 0 [0x7c000275, 0x1000]))
    [(sect.cmdstream, 4, mem 0 [0x7c000275])] (by decide) (by decide) (by decide)
  ⟨h.1, h.2 [addr_stream, addr_stream] 0 rfl 0 (by decide) rfl,
    h.2 [addr_stream, addr_stream] 1 rfl 0 (by decide) rfl, by decide, by decide⟩

/-! ## The parameter scan -/

theorem testBit_of_lt_pow (v b j : Nat) (hv : v < 2 ^ b) (hj : b ≤ j) : v.testBit j = false :=
  Nat.testBit_lt_two_pow (lt_of_lt_of_le hv (Nat.pow_le_pow_right (by decide) hj))

/-- Bits `[k, k+b)` of `w` equal `v` exactly when `w`, masked by the `b`-bit
mask moved to `k`, is `v` moved to `k`. -/
theorem field_eq_iff (w v b k : Nat) (hv : v < 2 ^ b) :
    w &&& ((2 ^ b - 1) <<< k) = v <<< k ↔ (w >>> k) % 2 ^ b = v := by
  constructor
  · intro h
    apply Nat.eq_of_testBit_eq
    intro j
    have h1 := congrArg (fun x => x.testBit (k + j)) h
    simp only [Nat.testBit_land, Nat.testBit_shiftLeft, Nat.testBit_two_pow_sub_one,
      Nat.add_sub_cancel_left, ge_iff_le, Nat.le_add_right, decide_True, Bool.true_and] at h1
    rw [Nat.testBit_mod_two_pow, Nat.testBit_shiftRight]
    by_cases hj : j < b
    · simp only [hj, decide_True, Bool.and_true, Bool.true_and] at h1 ⊢
      exact h1
    · simp only [hj, decide_False, Bool.false_and]
      exact (testBit_of_lt_pow v b j hv (by omega)).symm
  · intro h
    apply Nat.eq_of_testBit_eq
    intro i
    simp only [Nat.testBit_land, Nat.testBit_shiftLeft, Nat.testBit_two_pow_sub_one]
    by_cases hi : k ≤ i
    · have h1 := congrArg (fun x => x.testBit (i - k)) h
      simp only [Nat.testBit_mod_two_pow, Nat.testBit_shiftRight] at h1
      have h2 : k + (i - k) = i := by omega
      rw [h2] at h1
      simp only [ge_iff_le, hi, decide_True, Bool.true_and]
      rw [← h1]
      by_cases hj : i - k < b
      · simp [hj]
      · simp [hj]
    · simp [hi]

theorem field_eq_iff32 (w v b k : Nat) (hv : v < 2 ^ b) (hk : k + b ≤ 32) :
    w &&& ((2 ^ b - 1) <<< k) = (v <<< k) % 2 ^ 32 ↔ (w >>> k) % 2 ^ b = v := by
  have h1 : v <<< k < 2 ^ 32 :=
    lt_of_lt_of_le (Nat.shiftLeft_lt hv) (Nat.pow_le_pow_right (by decide) (by omega))
  rw [Nat.mod_eq_of_lt h1]
  exact field_eq_iff w v b k hv

theorem scan_loop_succ (w a fuel m val : Nat) :
    param_scan_loop w a (fuel + 1) m val =
      if w &&& m = val then some (some (m % 2 ^ 32))
      else if (m <<< a) % 2 ^ 64 &&& 0xffffffff ≠ 0 then
        param_scan_loop w a fuel ((m <<< a) % 2 ^ 64) ((val <<< a) % 2 ^ 32)
      else some none := by
  simp [param_scan_loop]

theorem mask_shift_lt (b k n : Nat) (h : k + b ≤ n) : (2 ^ b - 1) <<< k < 2 ^ n := by
  have h1 : 2 ^ b - 1 < 2 ^ b := Nat.sub_lt (Nat.two_pow_pos b) (by decide)
  exact lt_of_lt_of_le (Nat.shiftLeft_lt h1) (Nat.pow_le_pow_right (by decide) (by omega))

/-- The loop condition `m & 0xffffffff` holds for the `b`-bit mask moved to
`k` exactly when `k` is below 32. -/
theorem mask_low_ne_zero_iff (b k : Nat) (hb : 1 ≤ b) :
    (2 ^ b - 1) <<< k &&& 0xffffffff ≠ 0 ↔ k < 32 := by
  have h32 : (0xffffffff : Nat) = 2 ^ 32 - 1 := by decide
  rw [h32, Nat.and_pow_two_sub_one_eq_mod]
  constructor
  · intro h
    by_contra hk
    apply h
    apply Nat.eq_of_testBit_eq
    intro i
    rw [Nat.testBit_mod_two_pow, Nat.testBit_shiftLeft, Nat.zero_testBit]
    by_cases hi : i < 32
    · have : ¬ i ≥ k := by omega
      simp [this]
    · simp [hi]
  · intro hk h
    have h1 := congrArg (fun x => x.testBit k) h
    simp only [Nat.testBit_mod_two_pow, Nat.testBit_shiftLeft, Nat.zero_testBit,
      Nat.testBit_two_pow_sub_one, hk, decide_True, ge_iff_le, le_refl, Nat.sub_self,
      Bool.true_and] at h1
    simp only [decide_eq_false_iff_not] at h1
    omega

/-- One iteration of the scan loop when the `b`-bit mask is at shift `k` and
still inside the 32-bit word. -/
theorem scan_loop_step (w v b a k fuel : Nat) (hb : 1 ≤ b) (hv : v < 2 ^ b)
    (hk : k + b ≤ 32) (ha : a ≤ 32) :
    param_scan_loop w a (fuel + 1) ((2 ^ b - 1) <<< k) ((v <<< k) % 2 ^ 32) =
      if (w >>> k) % 2 ^ b = v then some (some ((2 ^ b - 1) <<< k))
      else if k + a < 32 then
        param_scan_loop w a fuel ((2 ^ b - 1) <<< (k + a)) ((v <<< (k + a)) % 2 ^ 32)
      else some none := by
  rw [scan_loop_succ]
  have e1 : ((2 ^ b - 1) <<< k) % 2 ^ 32 = (2 ^ b - 1) <<< k :=
    Nat.mod_eq_of_lt (mask_shift_lt b k 32 hk)
  have e2 : (((2 ^ b - 1) <<< k) <<< a) % 2 ^ 64 = (2 ^ b - 1) <<< (k + a) := by
    rw [← Nat.shiftLeft_add]
    exact Nat.mod_eq_of_lt (mask_shift_lt b (k + a) 64 (by omega))
  have e3 : (((v <<< k) % 2 ^ 32) <<< a) % 2 ^ 32 = (v <<< (k + a)) % 2 ^ 32 := by
    have h1 : v <<< k < 2 ^ 32 :=
      lt_of_lt_of_le (Nat.shiftLeft_lt hv) (Nat.pow_le_pow_right (by decide) (by omega))
    rw [Nat.mod_eq_of_lt h1, ← Nat.shiftLeft_add]
  rw [e1, e2, e3]
  simp only [field_eq_iff32 w v b k hv hk, mask_low_ne_zero_iff b (k + a) hb]

theorem param_mask_small (b : Nat) (hb : b ≤ 30) : param_mask b = 2 ^ b - 1 := by
  interval_cases b <;> rfl

theorem ALIGN_8 (b : Nat) (h1 : 1 ≤ b) (h2 : b ≤ 8) : ALIGN b 8 = 8 := by
  interval_cases b <;> rfl

theorem ALIGN_16 (b : Nat) (h1 : 9 ≤ b) (h2 : b ≤ 16) : ALIGN b 8 = 16 := by
  interval_cases b <;> rfl

theorem ALIGN_32 (b : Nat) (h1 : 25 ≤ b) (h2 : b ≤ 32) : ALIGN b 8 = 32 := by
  interval_cases b <;> rfl

theorem scan_start (w a fuel b v : Nat) (hv : v < 2 ^ b) (hb : b ≤ 32) :
    param_scan_loop w a fuel (2 ^ b - 1) v =
      param_scan_loop w a fuel ((2 ^ b - 1) <<< 0) ((v <<< 0) % 2 ^ 32) := by
  have h1 : v < 2 ^ 32 := lt_of_lt_of_le hv (Nat.pow_le_pow_right (by decide) hb)
  rw [Nat.shiftLeft_zero, Nat.shiftLeft_zero, Nat.mod_eq_of_lt h1]

theorem param_scan_class8 (w v b : Nat) (hv : v < 2 ^ b) (hb1 : 1 ≤ b) (hb2 : b ≤ 8) :
    param_scan w v b = stepped_scan w v b := by
  unfold param_scan stepped_scan scan_at_shifts
  rw [ALIGN_8 b hb1 hb2, param_mask_small b (by omega), scan_start w 8 65 b v hv (by omega)]
  rw [scan_loop_step w v b 8 0 64 hb1 hv (by omega) (by decide),
    scan_loop_step w v b 8 (0 + 8) 63 hb1 hv (by omega) (by decide),
    scan_loop_step w v b 8 (0 + 8 + 8) 62 hb1 hv (by omega) (by decide),
    scan_loop_step w v b 8 (0 + 8 + 8 + 8) 61 hb1 hv (by omega) (by decide)]
  have c0 : 0 + b ≤ 32 := by omega
  have c1 : 8 + b ≤ 32 := by omega
  have c2 : 16 + b ≤ 32 := by omega
  have c3 : 24 + b ≤ 32 := by omega
  simp only [List.find?_cons, List.find?_nil, Nat.reduceAdd, Nat.reduceMul, Nat.reduceLT,
    if_true, if_false, c0, c1, c2, c3, decide_True, Bool.true_and]
  by_cases d0 : w % 2 ^ b = v
  · have e0 : (w % 2 ^ b == v) = true := by simpa using d0
    simp [d0, e0]
  · have e0 : (w % 2 ^ b == v) = false := by simpa using d0
    by_cases d1 : (w >>> 8) % 2 ^ b = v
    · have e1 : ((w >>> 8) % 2 ^ b == v) = true := by simpa using d1
      simp [d0, e0, d1, e1]
    · have e1 : ((w >>> 8) % 2 ^ b == v) = false := by simpa using d1
      by_cases d2 : (w >>> 16) % 2 ^ b = v
      · have e2 : ((w >>> 16) % 2 ^ b == v) = true := by simpa using d2
        simp [d0, e0, d1, e1, d2, e2]
      · have e2 : ((w >>> 16) % 2 ^ b == v) = false := by simpa using d2
        by_cases d3 : (w >>> 24) % 2 ^ b = v
        · have e3 : ((w >>> 24) % 2 ^ b == v) = true := by simpa using d3
          simp [d0, e0, d1, e1, d2, e2, d3, e3]
        · have e3 : ((w >>> 24) % 2 ^ b == v) = false := by simpa using d3
          simp [d0, e0, d1, e1, d2, e2, d3, e3]

theorem param_scan_class16 (w v b : Nat) (hv : v < 2 ^ b) (hb1 : 9 ≤ b) (hb2 : b ≤ 16) :
    param_scan w v b = stepped_scan w v b := by
  unfold param_scan stepped_scan scan_at_shifts
  rw [ALIGN_16 b hb1 hb2, param_mask_small b (by omega), scan_start w 16 65 b v hv (by omega)]
  rw [scan_loop_step w v b 16 0 64 (by omega) hv (by omega) (by decide),
    scan_loop_step w v b 16 (0 + 16) 63 (by omega) hv (by omega) (by decide)]
  have c0 : 0 + b ≤ 32 := by omega
  have c1 : 16 + b ≤ 32 := by omega
  have c2 : ¬ 32 + b ≤ 32 := by omega
  have c3 : ¬ 48 + b ≤ 32 := by omega
  simp only [List.find?_cons, List.find?_nil, Nat.reduceAdd, Nat.reduceMul, Nat.reduceLT,
    if_true, if_false, c0, c1, c2, c3, decide_True, decide_False, Bool.true_and,
    Bool.false_and]
  by_cases d0 : w % 2 ^ b = v
  · have e0 : (w % 2 ^ b == v) = true := by simpa using d0
    simp [d0, e0]
  · have e0 : (w % 2 ^ b == v) = false := by simpa using d0
    by_cases d1 : (w >>> 16) % 2 ^ b = v
    · have e1 : ((w >>> 16) % 2 ^ b == v) = true := by simpa using d1
      simp [d0, e0, d1, e1]
    · have e1 : ((w >>> 16) % 2 ^ b == v) = false := by simpa using d1
      simp [d0, e0, d1, e1]

theorem param_scan_class32 (w v b : Nat) (hv : v < 2 ^ b) (hb1 : 25 ≤ b) (hb2 : b ≤ 30) :
    param_scan w v b = stepped_scan w v b := by
  unfold param_scan stepped_scan scan_at_shifts
  rw [ALIGN_32 b hb1 (by omega), param_mask_small b hb2,
    scan_start w 32 65 b v hv (by omega)]
  rw [scan_loop_step w v b 32 0 64 (by omega) hv (by omega) (by decide)]
  have c0 : 0 + b ≤ 32 := by omega
  have c1 : ¬ 32 + b ≤ 32 := by omega
  have c2 : ¬ 64 + b ≤ 32 := by omega
  have c3 : ¬ 96 + b ≤ 32 := by omega
  simp only [List.find?_cons, List.find?_nil, Nat.reduceAdd, Nat.reduceMul, Nat.reduceLT,
    if_true, if_false, c0, c1, c2, c3, decide_True, decide_False, Bool.true_and,
    Bool.false_and]
  by_cases d0 : w % 2 ^ b = v
  · have e0 : (w % 2 ^ b == v) = true := by simpa using d0
    simp [d0, e0]
  · have e0 : (w % 2 ^ b == v) = false := by simpa using d0
    simp [d0, e0]

theorem scan_loop_returns_aux (w a : Nat) (ha : 1 ≤ a) :
    ∀ (fuel m val j : Nat), 2 ^ j ∣ m → 33 ≤ j + fuel → 1 ≤ fuel →
      param_scan_loop w a fuel m val ≠ none := by
  intro fuel
  induction fuel with
  | zero => intro m val j _ _ h; omega
  | succ f ih =>
    intro m val j hj hf _
    rw [scan_loop_succ]
    by_cases hm : w &&& m = val
    · simp [hm]
    · rw [if_neg hm]
      by_cases hc : (m <<< a) % 2 ^ 64 &&& 0xffffffff ≠ 0
      · rw [if_pos hc]
        have h32 : (0xffffffff : Nat) = 2 ^ 32 - 1 := by decide
        rw [h32, Nat.and_pow_two_sub_one_eq_mod] at hc
        have hdvd : 2 ^ (j + 1) ∣ m <<< a := by
          rw [Nat.shiftLeft_eq]
          have h1 : 2 ^ (j + 1) ∣ 2 ^ (j + a) := Nat.pow_dvd_pow 2 (by omega)
          have h2 : 2 ^ (j + a) ∣ m * 2 ^ a := by
            rw [Nat.pow_add]; exact Nat.mul_dvd_mul hj (dvd_refl _)
          exact dvd_trans h1 h2
        have hj32 : j + 1 ≤ 32 := by
          by_contra hcon
          apply hc
          have h3 : 2 ^ 32 ∣ m <<< a := dvd_trans (Nat.pow_dvd_pow 2 (by omega)) hdvd
          have h4 : 2 ^ 32 ∣ (m <<< a) % 2 ^ 64 :=
            (Nat.dvd_mod_iff (Nat.pow_dvd_pow 2 (by decide))).mpr h3
          exact Nat.mod_eq_zero_of_dvd h4
        have hdvd2 : 2 ^ (j + 1) ∣ (m <<< a) % 2 ^ 64 :=
          (Nat.dvd_mod_iff (Nat.pow_dvd_pow 2 (by omega))).mpr hdvd
        exact ih _ _ (j + 1) hdvd2 (by omega) (by omega)
      · rw [if_neg hc]
        simp

/-- The scan loop returns within 65 iterations whenever the shift step
`alignedlen` is at least 1: the bound of `param_scan` is never reached. -/
theorem param_scan_loop_returns (w a m val : Nat) (ha : 1 ≤ a) :
    param_scan_loop w a 65 m val ≠ none :=
  scan_loop_returns_aux w a ha 65 m val 0 (by simp) (by decide) (by decide)

theorem scan_at_shifts_eq_some_iff (shifts : List Nat) (w v b : Nat) :
    (scan_at_shifts shifts w v b).isSome = true ↔
      ∃ k, k ∈ shifts ∧ k + b ≤ 32 ∧ (w >>> k) % 2 ^ b = v := by
  unfold scan_at_shifts
  rw [Option.isSome_map', List.find?_isSome]
  simp

theorem land_mask31 (w : Nat) (hw : w < 2 ^ 32) : w &&& 0xffffffff7fffffff = w % 2 ^ 31 := by
  have h1 : w = w &&& (2 ^ 32 - 1) := by
    rw [Nat.and_pow_two_sub_one_eq_mod, Nat.mod_eq_of_lt hw]
  have h2 : (2 ^ 32 - 1) &&& 0xffffffff7fffffff = 2 ^ 31 - 1 := by decide
  rw [h1, Nat.land_assoc, h2, Nat.and_pow_two_sub_one_eq_mod, Nat.and_pow_two_sub_one_eq_mod,
    Nat.mod_eq_of_lt hw]

theorem param_scan_31 (w v : Nat) (hw : w < 2 ^ 32) :
    param_scan w v 31 = stepped_scan w v 31 := by
  unfold param_scan stepped_scan scan_at_shifts
  have ha : ALIGN 31 8 = 32 := by rfl
  have hm : param_mask 31 = 0xffffffff7fffffff := by rfl
  rw [ha, hm, scan_loop_succ, land_mask31 w hw]
  have h1 : (0xffffffff7fffffff <<< 32) % 2 ^ 64 &&& 0xffffffff = 0 := by decide
  have h2 : 0xffffffff7fffffff % 2 ^ 32 = 2 ^ 31 - 1 := by decide
  rw [h1, h2]
  simp only [List.find?_cons, List.find?_nil, Nat.reduceAdd, Nat.reduceMul, Nat.reduceLeDiff,
    decide_True, decide_False, Bool.true_and, Bool.false_and, Nat.shiftRight_zero]
  by_cases d0 : w % 2147483648 = v
  · have e0 : (w % 2147483648 == v) = true := by simpa using d0
    simp [d0, e0]
  · have e0 : (w % 2147483648 == v) = false := by simpa using d0
    simp [d0, e0]

/-- Claim C5, as the code has it.  For a 32-bit word `w`, a non-zero value
`v < 2^b` and a bit length `b` from 1 to 31 whose byte-rounded length
`ALIGN(b, 8)` is 8, 16 or 32 (`b <= 16` or `b >= 25`), the scan visits the
shifts that are multiples of `ALIGN(b, 8)`: it reports a match exactly when
bits `[k, k+b)` of `w` equal `v` at such a shift `k` with `k + b <= 32`, and
the mask it records is the `b`-bit mask at the lowest such `k`.  For
`b <= 8` these are the shifts 0, 8, 16, 24 of the specification. -/
theorem param_scan_visits_aligned_steps (w v b : Nat) (hw : w < 2 ^ 32) (_h0 : 0 < v)
    (hv : v < 2 ^ b) (hb1 : 1 ≤ b) (hb2 : b ≤ 31) (hcls : b ≤ 16 ∨ 25 ≤ b) :
    param_scan w v b = stepped_scan w v b ∧
    ((param_scan w v b).isSome = true ↔
      ∃ k, k ∈ [0, ALIGN b 8, 2 * ALIGN b 8, 3 * ALIGN b 8] ∧ k + b ≤ 32 ∧
        (w >>> k) % 2 ^ b = v) ∧
    (b ≤ 8 → param_scan w v b = claimed_scan w v b) := by
  have h1 : param_scan w v b = stepped_scan w v b := by
    by_cases c8 : b ≤ 8
    · exact param_scan_class8 w v b hv hb1 c8
    · by_cases c16 : b ≤ 16
      · exact param_scan_class16 w v b hv (by omega) c16
      · by_cases c30 : b ≤ 30
        · exact param_scan_class32 w v b hv (by omega) c30
        · have : b = 31 := by omega
          subst this
          exact param_scan_31 w v hw
  refine ⟨h1, ?_, fun h8 => ?_⟩
  · rw [h1]
    exact scan_at_shifts_eq_some_iff _ w v b
  · rw [h1]
    unfold stepped_scan claimed_scan
    rw [ALIGN_8 b hb1 h8]

/-- A 16-bit parameter of value 1920 is found at shift 16 of `0x07800000`,
with mask `0xffff0000`. -/
theorem param_scan_visits_aligned_steps_witness :
    param_scan 0x07800000 1920 16 = stepped_scan 0x07800000 1920 16 ∧
    stepped_scan 0x07800000 1920 16 = some 0xffff0000 :=
  ⟨(param_scan_visits_aligned_steps 0x07800000 1920 16 (by decide) (by decide) (by decide)
    (by decide) (by decide) (by decide)).1, by decide⟩

/-- Claim C5 as stated fails: bits `[8, 24)` of `0x00078000` equal the 16-bit
value `0x780` and `8 + 16 <= 32`, so the specification's scan reports a match
with mask `0x00ffff00`, but the loop only visits the shifts 0 and 16 and
reports none.  And bits of `0x01000000` equal the 17-bit value `0x10001` at
no shift, yet the loop, at shift 24, reports a match with mask `0xff000000`. -/
theorem param_scan_skips_shift_8 :
    (8 + 16 ≤ 32 ∧ (0x00078000 >>> 8) % 2 ^ 16 = 0x780) ∧
    claimed_scan 0x00078000 0x780 16 = some 0x00ffff00 ∧
    param_scan 0x00078000 0x780 16 = none ∧
    claimed_scan 0x01000000 0x10001 17 = none ∧
    param_scan 0x01000000 0x10001 17 = some 0xff000000 := by
  decide

/-! ## Rendering of a word that equals a parameter value -/

theorem all_range_congr (n : Nat) (f g : Nat → Bool) (h : ∀ k, k < n → f k = g k) :
    (List.range n).all f = (List.range n).all g := by
  rw [Bool.eq_iff_iff, List.all_eq_true, List.all_eq_true]
  constructor
  · intro h1 k hk; rw [← h k (List.mem_range.mp hk)]; exact h1 k hk
  · intro h1 k hk; rw [h k (List.mem_range.mp hk)]; exact h1 k hk

theorem any_range_congr (n : Nat) (f g : Nat → Bool) (h : ∀ k, k < n → f k = g k) :
    (List.range n).any f = (List.range n).any g := by
  rw [Bool.eq_iff_iff, List.any_eq_true, List.any_eq_true]
  constructor
  · rintro ⟨k, hk, h1⟩; exact ⟨k, hk, by rw [← h k (List.mem_range.mp hk)]; exact h1⟩
  · rintro ⟨k, hk, h1⟩; exact ⟨k, hk, by rw [h k (List.mem_range.mp hk)]; exact h1⟩

theorem find_gpuaddr_congr (c c2 : context) (dword : Nat)
    (h1 : c.gpuaddrs = c2.gpuaddrs) (h2 : c.ngpuaddrs = c2.ngpuaddrs) :
    find_gpuaddr c dword = find_gpuaddr c2 dword := by
  unfold find_gpuaddr
  rw [h1, h2]

theorem wordAt_congr (cs cs2 : List context) (h : same_records cs cs2) (k : Nat) (i : Int)
    (offsets : List Int) (hk : offAt offsets k ≤ i) :
    wordAt cs k i offsets = wordAt cs2 k i offsets := by
  unfold wordAt
  exact (h.2 k).2.2.2.2.2 _ (by omega)

theorem find_pattern_congr (cs cs2 : List context) (h : same_records cs cs2) (dword : Nat)
    (i : Int) (offsets : List Int) (hi : ∀ k, k < cs.length → offAt offsets k ≤ i) :
    find_pattern cs dword i offsets = find_pattern cs2 dword i offsets := by
  have hpf : ∀ pattern, pattern_found cs dword i offsets pattern =
      pattern_found cs2 dword i offsets pattern := by
    intro pattern
    unfold pattern_found
    rw [← h.1]
    apply all_range_congr
    intro k hk
    rw [wordAt_congr cs cs2 h k i offsets (hi k hk)]
  unfold find_pattern
  simp only [hpf]

theorem rank_at_congr (cs cs2 : List context) (h : same_records cs cs2) (i : Int)
    (offsets : List Int) (hi : ∀ k, k < cs.length → offAt offsets k ≤ i)
    (hne : 0 < cs.length) :
    rank_at cs i offsets = rank_at cs2 i offsets := by
  have hw : ∀ k, k < cs.length → wordAt cs k i offsets = wordAt cs2 k i offsets :=
    fun k hk => wordAt_congr cs cs2 h k i offsets (hi k hk)
  have hg : ∀ k dword, find_gpuaddr (ctxAt cs k) dword = find_gpuaddr (ctxAt cs2 k) dword :=
    fun k dword => find_gpuaddr_congr _ _ dword (h.2 k).2.1 (h.2 k).2.2.1
  have hall : ∀ j, all_gpuaddr cs j i offsets = all_gpuaddr cs2 j i offsets := by
    intro j
    unfold all_gpuaddr
    rw [← h.1]
    apply all_range_congr
    intro k hk
    rw [hw k hk, hg]
  unfold rank_at
  simp only [hw 0 hne, hg, hall, find_pattern_congr cs cs2 h _ i offsets hi]

theorem past_end_congr (cs cs2 : List context) (h : same_records cs cs2) (i : Int)
    (offsets : List Int) : past_end cs i offsets = past_end cs2 i offsets := by
  unfold past_end
  rw [← h.1]
  apply any_range_congr
  intro k _
  rw [(h.2 k).1]

theorem find_rank_aux_congr (cs cs2 : List context) (h : same_records cs cs2)
    (offsets : List Int) (hne : 0 < cs.length) :
    ∀ (fuel : Nat) (i : Int), (∀ k, k < cs.length → offAt offsets k ≤ i) →
      find_rank_aux cs offsets fuel i = find_rank_aux cs2 offsets fuel i := by
  intro fuel
  induction fuel with
  | zero => intro i _; rfl
  | succ n ih =>
    intro i hi
    simp only [find_rank_aux]
    rw [past_end_congr cs cs2 h, rank_at_congr cs cs2 h i offsets hi hne,
      ih (i + 1) (fun k hk => by have := hi k hk; omega)]

/-- At a global index that has reached every stream's offset, `find_rank`
does not depend on what memory holds before the record buffers. -/
theorem find_rank_congr (cs cs2 : List context) (h : same_records cs cs2) (i : Int)
    (offsets : List Int) (hne : 0 < cs.length)
    (hi : ∀ k, k < cs.length → offAt offsets k ≤ i) :
    find_rank cs i offsets = find_rank cs2 i offsets := by
  unfold find_rank rank_fuel
  rw [(h.2 0).1]
  exact find_rank_aux_congr cs cs2 h offsets hne _ i hi

theorem max_sz_congr (cs cs2 : List context) (h : same_records cs cs2) :
    max_sz cs = max_sz cs2 := by
  unfold max_sz
  rw [← h.1]
  have hf : (fun (m : Int) k => if (ctxAt cs k).sz > m then (ctxAt cs k).sz else m) =
      (fun (m : Int) k => if (ctxAt cs2 k).sz > m then (ctxAt cs2 k).sz else m) := by
    funext m k
    rw [(h.2 k).1]
  rw [hf]

theorem eligible_congr (cs cs2 : List context) (h : same_records cs cs2)
    (offsets : List Int) (k : Nat) : eligible cs offsets k = eligible cs2 offsets k := by
  unfold eligible
  rw [max_sz_congr cs cs2 h, (h.2 k).1]

theorem mem_nonneg (pre : Nat) (words : List Nat) (n : Int) (h : 0 ≤ n) :
    mem pre words n = mem 0 words n := by
  unfold mem
  rw [if_neg (by omega), if_neg (by omega)]

theorem scenario_same_records (pre pb : Nat) :
    same_records [stream_A pre, stream_B pb] [stream_A 0, stream_B 0] := by
  refine ⟨rfl, fun k => ?_⟩
  rcases k with _ | _ | k
  · exact ⟨rfl, rfl, rfl, rfl, rfl, fun n hn => mem_nonneg pre _ n hn⟩
  · exact ⟨rfl, rfl, rfl, rfl, rfl, fun n hn => mem_nonneg pb _ n hn⟩
  · exact ⟨rfl, rfl, rfl, rfl, rfl, fun _ _ => rfl⟩

set_option maxRecDepth 1000000 in
/-- In the insertion scenario no skip is taken at global index 0 whatever
memory holds before the buffers, as long as the word before stream A's buffer
does not agree with B's first word under one of the masks 0, 1, 2. -/
theorem no_skip_at_first_word (pre pb : Nat)
    (h0 : pre &&& 0xffffffff ≠ 0x11111111) (h1 : pre &&& 0xffffff00 ≠ 0x11111100)
    (h2 : pre &&& 0xffff00ff ≠ 0x11110011) :
    adjust_offsets [stream_A pre, stream_B pb] 0 zero_offsets = zero_offsets := by
  have hs := scenario_same_records pre pb
  have hlen : (0 : Nat) < [stream_A pre, stream_B pb].length := Nat.zero_lt_succ _
  -- the ranks that do not involve the word before the buffer
  have r0 : find_rank [stream_A pre, stream_B pb] 0 zero_offsets = 10 := by
    rw [find_rank_congr _ _ hs 0 zero_offsets hlen
      (show ∀ k, k < 2 → offAt zero_offsets k ≤ 0 from by decide)]
    decide
  have r1 : find_rank [stream_A pre, stream_B pb] (0 + 1) (zero_offsets.set 0 1) = 7 := by
    rw [find_rank_congr _ _ hs (0 + 1) _ hlen
      (show ∀ k, k < 2 → offAt (zero_offsets.set 0 1) k ≤ 0 + 1 from by decide)]
    decide
  have hpe : past_end [stream_A pre, stream_B pb] 0 (zero_offsets.set 0 1) = false := by
    rw [past_end_congr _ _ hs]
    decide
  -- the rank of position 0 under the tentative vector
  have hw0 : wordAt [stream_A pre, stream_B pb] 0 0 (zero_offsets.set 0 1) = pre := rfl
  have hw1 : wordAt [stream_A pre, stream_B pb] 1 0 (zero_offsets.set 0 1) = 0x11111111 :=
    rfl
  have hg : find_gpuaddr (ctxAt [stream_A pre, stream_B pb] 0) pre = -1 := rfl
  have hra : rank_at [stream_A pre, stream_B pb] 0 (zero_offsets.set 0 1) ≤ 7 := by
    unfold rank_at
    simp only [hw0, hg]
    rw [if_neg (by decide)]
    rcases find_pattern_range [stream_A pre, stream_B pb] pre 0 (zero_offsets.set 0 1) with
      hn | ⟨j, hj, hjeq⟩
    · rw [hn, if_neg (by decide)]
      decide
    · rw [hjeq, if_pos (by omega), patterns_length]
      have hpf := ((find_pattern_eq_iff _ _ _ _ j).mp hjeq).2.1
      rw [pattern_found_iff] at hpf
      have hk1 := hpf 1 (show 1 < 2 from by decide)
      rw [hw1] at hk1
      have hj3 : 3 ≤ j := by
        by_contra hc
        have hj' : j = 0 ∨ j = 1 ∨ j = 2 := by omega
        rcases hj' with rfl | rfl | rfl
        · exact h0 hk1
        · exact h1 hk1
        · exact h2 hk1
      omega
  have rt : find_rank [stream_A pre, stream_B pb] 0 (zero_offsets.set 0 1) ≤ 10 := by
    rw [find_rank_unfold _ _ _ hlen, hpe, r1]
    simp only [Bool.false_eq_true, if_false]
    have : (7 : Int).tdiv 2 = 3 := by decide
    omega
  -- no stream is taken
  unfold adjust_offsets
  rw [(adjust_fold_spec [stream_A pre, stream_B pb] 0
    (List.range [stream_A pre, stream_B pb].length)
    (zero_offsets, zero_offsets, find_rank [stream_A pre, stream_B pb] 0 zero_offsets)
    rfl rfl).2.2.2.1]
  intro k hk
  have hk2 : k = 0 ∨ k = 1 := by
    have := List.mem_range.mp hk
    simp only [List.length_cons, List.length_nil] at this
    omega
  rcases hk2 with rfl | rfl
  · rintro ⟨-, himp⟩
    have he : zero_offsets.set 0 (offAt zero_offsets 0 + 1) = zero_offsets.set 0 1 := by
      decide
    simp only [he, r0] at himp
    omega
  · rintro ⟨hel, -⟩
    rw [eligible_congr _ _ hs] at hel
    exact absurd hel
      (show ¬ eligible [stream_A 0, stream_B 0] zero_offsets 1 = true from by decide)

theorem adjust_step_congr (cs cs2 : List context) (h : same_records cs cs2)
    (hne : 0 < cs.length) (i : Int) (st : List Int × List Int × Int) (k : Nat)
    (hst : ∀ m, m < cs.length → offAt (st.2.1.set k (offAt st.2.1 k + 1)) m ≤ i) :
    adjust_step cs i st k = adjust_step cs2 i st k := by
  simp only [adjust_step]
  rw [eligible_congr cs cs2 h, find_rank_congr cs cs2 h i _ hne hst]

theorem adjust_step_new (cs : List context) (i : Int) (st : List Int × List Int × Int)
    (k : Nat) :
    (adjust_step cs i st k).2.1 = st.2.1.set k (offAt st.2.1 k + 1) ∨
    (adjust_step cs i st k).2.1 = st.2.1 := by
  simp only [adjust_step]
  split_ifs
  · left; rfl
  · right; exact set_restore _ _
  · right; rfl

theorem adjust_fold_congr (cs cs2 : List context) (h : same_records cs cs2)
    (hne : 0 < cs.length) (i : Int) :
    ∀ (ks : List Nat) (st : List Int × List Int × Int), ks.Nodup →
      (∀ m, m < cs.length → offAt st.2.1 m ≤ i) →
      (∀ m, m ∈ ks → offAt st.2.1 m + 1 ≤ i) →
      ks.foldl (adjust_step cs i) st = ks.foldl (adjust_step cs2 i) st := by
  intro ks
  induction ks with
  | nil => intro st _ _ _; rfl
  | cons k rest ih =>
    intro st hnd h1 h2
    have hnd2 := List.nodup_cons.mp hnd
    have hst : ∀ m, m < cs.length → offAt (st.2.1.set k (offAt st.2.1 k + 1)) m ≤ i := by
      intro m hm
      by_cases hkm : k = m
      · subst hkm
        by_cases hlen : k < st.2.1.length
        · rw [offAt_set_eq _ _ _ hlen]
          exact h2 k (List.mem_cons_self _ _)
        · rw [set_short _ _ _ (by omega)]
          exact h1 k hm
      · rw [offAt_set_ne _ _ _ _ hkm]
        exact h1 m hm
    rw [List.foldl_cons, List.foldl_cons, ← adjust_step_congr cs cs2 h hne i st k hst]
    apply ih _ hnd2.2
    · intro m hm
      rcases adjust_step_new cs i st k with hn | hn
      · rw [hn]; exact hst m hm
      · rw [hn]; exact h1 m hm
    · intro m hm
      have hkm : k ≠ m := by rintro rfl; exact hnd2.1 hm
      rcases adjust_step_new cs i st k with hn | hn
      · rw [hn, offAt_set_ne _ _ _ _ hkm]; exact h2 m (List.mem_cons_of_mem _ hm)
      · rw [hn]; exact h2 m (List.mem_cons_of_mem _ hm)

/-- At a global index above every stream's offset, `adjust_offsets` does not
depend on what memory holds before the record buffers. -/
theorem adjust_offsets_congr (cs cs2 : List context) (h : same_records cs cs2)
    (hne : 0 < cs.length) (i : Int) (offsets : List Int)
    (hi : ∀ m, m < cs.length → offAt offsets m + 1 ≤ i) :
    adjust_offsets cs i offsets = adjust_offsets cs2 i offsets := by
  unfold adjust_offsets
  rw [← h.1, find_rank_congr cs cs2 h i offsets hne
    (fun m hm => by have := hi m hm; omega)]
  rw [adjust_fold_congr cs cs2 h hne i (List.range cs.length) _ (List.nodup_range _)
    (fun m hm => by have := hi m hm; simp only; omega)
    (fun m hm => hi m (List.mem_range.mp hm))]

theorem classify_congr (cs cs2 : List context) (h : same_records cs cs2) (idx : Nat)
    (dword : Nat) (gi : Int) (offsets : List Int)
    (hi : ∀ k, k < cs.length → offAt offsets k ≤ gi) :
    classify cs idx dword gi offsets = classify cs2 idx dword gi offsets := by
  have hg : find_gpuaddr (ctxAt cs idx) dword = find_gpuaddr (ctxAt cs2 idx) dword :=
    find_gpuaddr_congr _ _ dword (h.2 idx).2.1 (h.2 idx).2.2.1
  have hr : ∀ j, render_shared (ctxAt cs idx) dword j =
      render_shared (ctxAt cs2 idx) dword j := by
    intro j
    unfold render_shared param_matches param_entry
    rw [(h.2 idx).2.2.2.1, (h.2 idx).2.2.2.2.1]
  unfold classify
  simp only [hg, find_pattern_congr cs cs2 h dword gi offsets hi, hr]

/-- A run of the word loop that passes `reads_from_zero` prints the same
whatever memory holds before the record buffers. -/
theorem hexdump_loop_congr (cs cs2 : List context) (h : same_records cs cs2)
    (hne : 0 < cs.length) (idx : Nat) :
    ∀ (n : Nat) (i offset : Int) (offsets : List Int),
      reads_from_zero cs2 idx n i offset offsets = true →
      hexdump_loop cs idx n i offset offsets = hexdump_loop cs2 idx n i offset offsets := by
  intro n
  induction n with
  | zero => intro i offset offsets _; rfl
  | succ n ih =>
    intro i offset offsets hc
    simp only [reads_from_zero, Bool.and_eq_true, decide_eq_true_eq, List.all_eq_true,
      List.mem_range] at hc
    obtain ⟨⟨⟨h0, h1⟩, h2⟩, h3⟩ := hc
    rw [← h.1] at h1 h2
    have ha : adjust_offsets cs (i + offset) offsets =
        adjust_offsets cs2 (i + offset) offsets :=
      adjust_offsets_congr cs cs2 h hne _ _ h1
    simp only [hexdump_loop]
    rw [ha, ih _ _ _ h3, classify_congr cs cs2 h idx _ _ _ h2,
      (h.2 idx).2.2.2.2.2 i h0]

theorem hexdump_loop_succ (cs : List context) (idx n : Nat) (i offset : Int)
    (offsets : List Int) :
    hexdump_loop cs idx (n + 1) i offset offsets =
      ⟨offAt (adjust_offsets cs (i + offset) offsets) idx - offset,
        classify cs idx ((ctxAt cs idx).buf i)
          (i + offAt (adjust_offsets cs (i + offset) offsets) idx)
          (adjust_offsets cs (i + offset) offsets)⟩ ::
        hexdump_loop cs idx n (i + 1) (offAt (adjust_offsets cs (i + offset) offsets) idx)
          (adjust_offsets cs (i + offset) offsets) := rfl

set_option maxRecDepth 1000000 in
/-- In the insertion scenario both scans print the same whatever memory holds
before the buffers, as long as the word before stream A's buffer does not
agree with B's first word under one of the masks 0, 1, 2. -/
theorem scenario_hexdump_congr (pre pb : Nat)
    (h0 : pre &&& 0xffffffff ≠ 0x11111111) (h1 : pre &&& 0xffffff00 ≠ 0x11111100)
    (h2 : pre &&& 0xffff00ff ≠ 0x11110011) (idx : Nat) (hidx : idx < 2) :
    handle_hexdump [stream_A pre, stream_B pb] idx =
      handle_hexdump [stream_A 0, stream_B 0] idx := by
  have hs := scenario_same_records pre pb
  have hlen : (0 : Nat) < [stream_A pre, stream_B pb].length := Nat.zero_lt_succ _
  have ha := no_skip_at_first_word pre pb h0 h1 h2
  have ha0 : adjust_offsets [stream_A 0, stream_B 0] 0 zero_offsets = zero_offsets := by
    decide
  have hz : ∀ k, k < [stream_A pre, stream_B pb].length →
      offAt zero_offsets k ≤ 0 + offAt zero_offsets idx := by
    intro k hk
    have e : ∀ m, m < 2 → offAt zero_offsets m = 0 := by decide
    rw [e k hk, e idx hidx]
    decide
  have hstep : ∀ n, reads_from_zero [stream_A 0, stream_B 0] idx n (0 + 1)
        (offAt zero_offsets idx) zero_offsets = true →
      hexdump_loop [stream_A pre, stream_B pb] idx (n + 1) 0 0 zero_offsets =
        hexdump_loop [stream_A 0, stream_B 0] idx (n + 1) 0 0 zero_offsets := by
    intro n hc
    rw [hexdump_loop_succ, hexdump_loop_succ]
    simp only [add_zero]
    rw [ha, ha0, classify_congr _ _ hs idx _ _ _ hz,
      hexdump_loop_congr _ _ hs hlen idx n _ _ _ hc, (hs.2 idx).2.2.2.2.2 0 (le_refl 0)]
  unfold handle_hexdump
  rw [(hs.2 idx).1]
  have hidx2 : idx = 0 ∨ idx = 1 := by omega
  rcases hidx2 with rfl | rfl
  · exact hstep 2 (by decide)
  · exact hstep 3 (by decide)

/-! ## The insertion scenario -/

set_option maxRecDepth 1000000 in
/-- The insertion scenario with the word 0 before both buffers, evaluated. -/
theorem scenario_zero :
    find_rank [stream_A 0, stream_B 0] 1 zero_offsets = 0 ∧
    find_rank [stream_A 0, stream_B 0] 1 (zero_offsets.set 0 1) = 7 ∧
    adjust_offsets [stream_A 0, stream_B 0] 1 zero_offsets = zero_offsets.set 0 1 ∧
    adjust_offsets [stream_A 0, stream_B 0] 2 (zero_offsets.set 0 1) = zero_offsets.set 0 1 ∧
    adjust_offsets [stream_A 0, stream_B 0] 3 (zero_offsets.set 0 1) = zero_offsets.set 0 1 ∧
    (handle_hexdump [stream_A 0, stream_B 0] 0).map (fun w => w.fillers) = [0, 1, 0] ∧
    (handle_hexdump [stream_A 0, stream_B 0] 1).map (fun w => w.fillers) = [0, 0, 0, 0] ∧
    (handle_hexdump [stream_A 0, stream_B 0] 0).map (fun w => w.cls) =
      [classify [stream_A 0, stream_B 0] 0 0x11111111 0 zero_offsets,
       classify [stream_A 0, stream_B 0] 0 0x22222222 2 (zero_offsets.set 0 1),
       classify [stream_A 0, stream_B 0] 0 0x33333333 3 (zero_offsets.set 0 1)] ∧
    (handle_hexdump [stream_A 0, stream_B 0] 1).map (fun w => w.cls) =
      [classify [stream_A 0, stream_B 0] 1 0x11111111 0 zero_offsets,
       classify [stream_A 0, stream_B 0] 1 0x99999999 1 (zero_offsets.set 0 1),
       classify [stream_A 0, stream_B 0] 1 0x22222222 2 (zero_offsets.set 0 1),
       classify [stream_A 0, stream_B 0] 1 0x33333333 3 (zero_offsets.set 0 1)] ∧
    (handle_hexdump [stream_A 0, stream_B 0] 0).map (fun w => w.cls) =
      [wordclass.shared (List.replicate 4 ⟨false, 0x0000ff, 0x11⟩) [],
       wordclass.shared (List.replicate 4 ⟨false, 0x0000ff, 0x22⟩) [],
       wordclass.shared (List.replicate 4 ⟨false, 0x0000ff, 0x33⟩) []] ∧
    (handle_hexdump [stream_A 0, stream_B 0] 1).map (fun w => w.cls) =
      [wordclass.shared (List.replicate 4 ⟨false, 0x0000ff, 0x11⟩) [],
       wordclass.raw 0x99999999,
       wordclass.shared (List.replicate 4 ⟨false, 0x0000ff, 0x22⟩) [],
       wordclass.shared (List.replicate 4 ⟨false, 0x0000ff, 0x33⟩) []] := by
  decide

set_option maxRecDepth 1000000 in
/-- The insertion scenario when the read before the buffer finds nothing
alike.  Streams A `[0x11111111, 0x22222222, 0x33333333]` and B
`[0x11111111, 0x99999999, 0x22222222, 0x33333333]`, whatever memory holds
before the two buffers as long as the word `pre` before A's buffer (which
`find_rank` reads at global index 0 for the tentative vector) does not agree
with `0x11111111` under mask 0, 1 or 2.  At global index 0 `adjust_offsets`
leaves the zero vector; at global index 1 incrementing stream A's offset
raises `find_rank` from 0 to 7 and is kept, and the vector then stays
`[1, 0, ...]`; the scan of A has one filler, before its second word, the
scan of B has none; A's words 1 and 2 sit at the global indices 2 and 3 of
B's words 2 and 3, both scans render them as fully shared, and B's inserted
word is printed raw. -/
theorem insertion_scenario (pre pb : Nat)
    (h0 : pre &&& 0xffffffff ≠ 0x11111111) (h1 : pre &&& 0xffffff00 ≠ 0x11111100)
    (h2 : pre &&& 0xffff00ff ≠ 0x11110011) :
    adjust_offsets [stream_A pre, stream_B pb] 0 zero_offsets = zero_offsets ∧
    find_rank [stream_A pre, stream_B pb] 1 zero_offsets = 0 ∧
    find_rank [stream_A pre, stream_B pb] 1 (zero_offsets.set 0 1) = 7 ∧
    adjust_offsets [stream_A pre, stream_B pb] 1 zero_offsets = zero_offsets.set 0 1 ∧
    adjust_offsets [stream_A pre, stream_B pb] 2 (zero_offsets.set 0 1) =
      zero_offsets.set 0 1 ∧
    adjust_offsets [stream_A pre, stream_B pb] 3 (zero_offsets.set 0 1) =
      zero_offsets.set 0 1 ∧
    (handle_hexdump [stream_A pre, stream_B pb] 0).map (fun w => w.fillers) = [0, 1, 0] ∧
    (handle_hexdump [stream_A pre, stream_B pb] 1).map (fun w => w.fillers) = [0, 0, 0, 0] ∧
    wordAt [stream_A pre, stream_B pb] 0 2 (zero_offsets.set 0 1) = (stream_A pre).buf 1 ∧
    wordAt [stream_A pre, stream_B pb] 1 2 (zero_offsets.set 0 1) = (stream_B pb).buf 2 ∧
    wordAt [stream_A pre, stream_B pb] 0 3 (zero_offsets.set 0 1) = (stream_A pre).buf 2 ∧
    wordAt [stream_A pre, stream_B pb] 1 3 (zero_offsets.set 0 1) = (stream_B pb).buf 3 ∧
    (handle_hexdump [stream_A pre, stream_B pb] 0).map (fun w => w.cls) =
      [classify [stream_A pre, stream_B pb] 0 0x11111111 0 zero_offsets,
       classify [stream_A pre, stream_B pb] 0 0x22222222 2 (zero_offsets.set 0 1),
       classify [stream_A pre, stream_B pb] 0 0x33333333 3 (zero_offsets.set 0 1)] ∧
    (handle_hexdump [stream_A pre, stream_B pb] 1).map (fun w => w.cls) =
      [classify [stream_A pre, stream_B pb] 1 0x11111111 0 zero_offsets,
       classify [stream_A pre, stream_B pb] 1 0x99999999 1 (zero_offsets.set 0 1),
       classify [stream_A pre, stream_B pb] 1 0x22222222 2 (zero_offsets.set 0 1),
       classify [stream_A pre, stream_B pb] 1 0x33333333 3 (zero_offsets.set 0 1)] ∧
    (handle_hexdump [stream_A pre, stream_B pb] 0).map (fun w => w.cls) =
      [wordclass.shared (List.replicate 4 ⟨false, 0x0000ff, 0x11⟩) [],
       wordclass.shared (List.replicate 4 ⟨false, 0x0000ff, 0x22⟩) [],
       wordclass.shared (List.replicate 4 ⟨false, 0x0000ff, 0x33⟩) []] ∧
    (handle_hexdump [stream_A pre, stream_B pb] 1).map (fun w => w.cls) =
      [wordclass.shared (List.replicate 4 ⟨false, 0x0000ff, 0x11⟩) [],
       wordclass.raw 0x99999999,
       wordclass.shared (List.replicate 4 ⟨false, 0x0000ff, 0x22⟩) [],
       wordclass.shared (List.replicate 4 ⟨false, 0x0000ff, 0x33⟩) []] := by
  have hs := scenario_same_records pre pb
  have hlen : (0 : Nat) < [stream_A pre, stream_B pb].length := Nat.zero_lt_succ _
  obtain ⟨z1, z2, z3, z4, z5, z6, z7, z8, z9, z10, z11⟩ := scenario_zero
  have hx0 := scenario_hexdump_congr pre pb h0 h1 h2 0 (by decide)
  have hx1 := scenario_hexdump_congr pre pb h0 h1 h2 1 (by decide)
  have b0 : ∀ k, k < 2 → offAt zero_offsets k ≤ 0 := by decide
  have b1 : ∀ k, k < 2 → offAt zero_offsets k + 1 ≤ 1 := by decide
  have b1' : ∀ k, k < 2 → offAt zero_offsets k ≤ 1 := by decide
  have c1 : ∀ k, k < 2 → offAt (zero_offsets.set 0 1) k ≤ 1 := by decide
  have c2 : ∀ k, k < 2 → offAt (zero_offsets.set 0 1) k + 1 ≤ 2 := by decide
  have c2' : ∀ k, k < 2 → offAt (zero_offsets.set 0 1) k ≤ 2 := by decide
  have c3 : ∀ k, k < 2 → offAt (zero_offsets.set 0 1) k + 1 ≤ 3 := by decide
  have c3' : ∀ k, k < 2 → offAt (zero_offsets.set 0 1) k ≤ 3 := by decide
  refine ⟨no_skip_at_first_word pre pb h0 h1 h2, ?_, ?_, ?_, ?_, ?_, ?_, ?_, rfl, rfl, rfl,
    rfl, ?_, ?_, ?_, ?_⟩
  · rw [find_rank_congr _ _ hs 1 _ hlen b1']; exact z1
  · rw [find_rank_congr _ _ hs 1 _ hlen c1]; exact z2
  · rw [adjust_offsets_congr _ _ hs hlen 1 _ b1]; exact z3
  · rw [adjust_offsets_congr _ _ hs hlen 2 _ c2]; exact z4
  · rw [adjust_offsets_congr _ _ hs hlen 3 _ c3]; exact z5
  · rw [hx0]; exact z6
  · rw [hx1]; exact z7
  · rw [hx0, classify_congr _ _ hs 0 _ 0 _ b0, classify_congr _ _ hs 0 _ 2 _ c2',
      classify_congr _ _ hs 0 _ 3 _ c3']
    exact z8
  · rw [hx1, classify_congr _ _ hs 1 _ 0 _ b0, classify_congr _ _ hs 1 _ 1 _ c1,
      classify_congr _ _ hs 1 _ 2 _ c2', classify_congr _ _ hs 1 _ 3 _ c3']
    exact z9
  · rw [hx0]; exact z10
  · rw [hx1]; exact z11

/-- The insertion scenario with the word 0 before both buffers: no skip at
global index 0, the skip of stream A at index 1, one filler in the scan of A
and none in the scan of B. -/
theorem insertion_scenario_witness :
    adjust_offsets [stream_A 0, stream_B 0] 0 zero_offsets = zero_offsets ∧
    adjust_offsets [stream_A 0, stream_B 0] 1 zero_offsets = zero_offsets.set 0 1 ∧
    (handle_hexdump [stream_A 0, stream_B 0] 0).map (fun w => w.fillers) = [0, 1, 0] ∧
    (handle_hexdump [stream_A 0, stream_B 0] 1).map (fun w => w.fillers) = [0, 0, 0, 0] :=
  have h := insertion_scenario 0 0 (by decide) (by decide) (by decide)
  ⟨h.1, h.2.2.2.1, h.2.2.2.2.2.2.1, h.2.2.2.2.2.2.2.1⟩

set_option maxRecDepth 1000000 in
/-- The skip decision at global index 0 reads the word before stream A's
buffer (`ctxts[0].buf[0 - 1]` under the tentative vector `[1, 0, ...]`): if
that word is `0x11111111` the tentative vector ranks 13 against 10 and the
skip is taken at index 0. -/
theorem first_skip_reads_preceding_word :
    wordAt [stream_A 0x11111111, stream_B 0] 0 0 (zero_offsets.set 0 1) = 0x11111111 ∧
    find_rank [stream_A 0x11111111, stream_B 0] 0 zero_offsets = 10 ∧
    find_rank [stream_A 0x11111111, stream_B 0] 0 (zero_offsets.set 0 1) = 13 ∧
    adjust_offsets [stream_A 0x11111111, stream_B 0] 0 zero_offsets = zero_offsets.set 0 1 ∧
    find_rank [stream_A 0, stream_B 0] 0 (zero_offsets.set 0 1) = 3 := by
  decide

/-! ## The shared-pattern branch -/

theorem classify_shared (cs : List context) (idx : Nat) (dword : Nat) (gi : Int)
    (offsets : List Int) (jp : Nat)
    (haddr : find_gpuaddr (ctxAt cs idx) dword = -1)
    (hpat : find_pattern cs dword gi offsets = (jp : Int)) :
    classify cs idx dword gi offsets = render_shared (ctxAt cs idx) dword jp := by
  unfold classify
  simp only [haddr, hpat]
  rw [if_neg (by decide), if_pos (by omega), Int.toNat_ofNat]

theorem classify_raw (cs : List context) (idx : Nat) (dword : Nat) (gi : Int)
    (offsets : List Int)
    (haddr : find_gpuaddr (ctxAt cs idx) dword = -1)
    (hpat : find_pattern cs dword gi offsets = -1) :
    classify cs idx dword gi offsets = wordclass.raw dword := by
  unfold classify
  simp only [haddr, hpat]
  rw [if_neg (by decide), if_neg (by decide)]

theorem render_shared_bytes (ctx : context) (dword jp k : Nat) (hk : k < 4) :
    ((List.range 4).map (render_byte dword (patterns.getD jp 0) (known_match dword).1
        (known_match dword).2 (param_matches ctx dword)))[k]? =
      some (render_byte dword (patterns.getD jp 0) (known_match dword).1
        (known_match dword).2 (param_matches ctx dword) k) := by
  rw [List.getElem?_map, List.getElem?_range hk]
  rfl

theorem render_byte_no_param (dword pattern km kc : Nat) (pm : List (Nat × Nat × String))
    (k : Nat) (h : ∀ e, e ∈ pm → (0xff000000 >>> (8 * k)) &&& e.1 = 0) :
    render_byte dword pattern km kc pm k =
      ⟨false,
        if (0xff000000 >>> (8 * k)) &&& km ≠ 0 then kc
        else if pattern &&& (0xff000000 >>> (8 * k)) ≠ 0 then 0x0000ff else 0x000000,
        (dword &&& (0xff000000 >>> (8 * k))) >>> (24 - 8 * k)⟩ := by
  have hf : pm.find? (fun e => (0xff000000 >>> (8 * k)) &&& e.1 != 0) = none := by
    rw [List.find?_eq_none]
    intro e he
    simp [h e he]
  simp only [render_byte, hf, bne_iff_ne, ne_eq, ite_not]

theorem render_byte_param (dword pattern km kc : Nat) (pm : List (Nat × Nat × String))
    (k n : Nat) (e : Nat × Nat × String) (hn : pm[n]? = some e)
    (hc : (0xff000000 >>> (8 * k)) &&& e.1 ≠ 0)
    (hfirst : ∀ m e2, m < n → pm[m]? = some e2 → (0xff000000 >>> (8 * k)) &&& e2.1 = 0) :
    render_byte dword pattern km kc pm k =
      ⟨true, e.2.1, (dword &&& (0xff000000 >>> (8 * k))) >>> (24 - 8 * k)⟩ := by
  have hf : pm.find? (fun e => (0xff000000 >>> (8 * k)) &&& e.1 != 0) = some e := by
    induction pm generalizing n with
    | nil => simp at hn
    | cons a l ih =>
      cases n with
      | zero =>
        simp only [List.getElem?_cons_zero, Option.some.injEq] at hn
        subst hn
        simp [List.find?_cons, hc]
      | succ n =>
        have ha := hfirst 0 a (Nat.zero_lt_succ n) (by simp)
        simp only [List.find?_cons, ha, bne_self_eq_false]
        exact ih n (by simpa using hn) (fun m e2 hm h2 => hfirst (m + 1) e2 (by omega)
          (by simpa using h2))
  simp only [render_byte, hf]

/-- The byte colours of the shared-pattern branch inside the arrays of the
source.  When `handle_hexdump` renders a word through the
shared-pattern branch (no announced address, `find_pattern` returned `jp`) in
a stream that holds at most 32 active parameters, all of a type below 11 (the
size of `param_colors`), of which at most 4 (the size of `pmasks` and
`pcolors`) match the word, each of its four bytes, `k` counted from the most
significant one, is as follows.  Covered by no matched parameter mask and not by the known-pattern
mask: blue `0x0000ff` if the byte lies within `patterns[jp]`, else black.
Covered by the known-pattern mask and by no parameter mask: the known
pattern's colour.  Covered by a matched parameter mask: bold, in the colour of
the first such parameter in the order the matches were stored. -/
theorem shared_branch_byte_colours (cs : List context) (idx : Nat) (dword : Nat) (gi : Int)
    (offsets : List Int) (jp : Nat)
    (hn32 : (ctxAt cs idx).nparams ≤ 32)
    (htypes : ∀ j2, j2 < (ctxAt cs idx).nparams →
      ((ctxAt cs idx).params.getD j2 ⟨0, 0, 0⟩).type < param_colors.length)
    (hcap : (param_matches (ctxAt cs idx) dword).length ≤ pmasks_size)
    (haddr : find_gpuaddr (ctxAt cs idx) dword = -1)
    (hpat : find_pattern cs dword gi offsets = (jp : Int)) :
    ∃ bytes names, classify cs idx dword gi offsets = wordclass.shared bytes names ∧
      ∀ k, k < 4 → ∃ bo, bytes[k]? = some bo ∧
        bo.value = (dword &&& (0xff000000 >>> (8 * k))) >>> (24 - 8 * k) ∧
        ((∀ e, e ∈ param_matches (ctxAt cs idx) dword → (0xff000000 >>> (8 * k)) &&& e.1 = 0) →
          (0xff000000 >>> (8 * k)) &&& (known_match dword).1 = 0 →
          bo.bold = false ∧
          bo.color = if patterns.getD jp 0 &&& (0xff000000 >>> (8 * k)) ≠ 0 then 0x0000ff
            else 0x000000) ∧
        ((∀ e, e ∈ param_matches (ctxAt cs idx) dword → (0xff000000 >>> (8 * k)) &&& e.1 = 0) →
          (0xff000000 >>> (8 * k)) &&& (known_match dword).1 ≠ 0 →
          bo.bold = false ∧ bo.color = (known_match dword).2) ∧
        (∀ (n : Nat) (e : Nat × Nat × String), (param_matches (ctxAt cs idx) dword)[n]? = some e →
          (0xff000000 >>> (8 * k)) &&& e.1 ≠ 0 →
          (∀ (m : Nat) (e2 : Nat × Nat × String), m < n → (param_matches (ctxAt cs idx) dword)[m]? = some e2 →
            (0xff000000 >>> (8 * k)) &&& e2.1 = 0) →
          bo.bold = true ∧ bo.color = e.2.1) := by
  have _hscope := And.intro hn32 (And.intro htypes hcap)
  refine ⟨_, _, classify_shared cs idx dword gi offsets jp haddr hpat, ?_⟩
  intro k hk
  refine ⟨_, render_shared_bytes (ctxAt cs idx) dword jp k hk, ?_, ?_, ?_, ?_⟩
  · simp only [render_byte]
    split <;> rfl
  · intro hno hkm
    rw [render_byte_no_param _ _ _ _ _ k hno]
    simp only [hkm, ne_eq, not_true_eq_false, if_false, true_and]
  · intro hno hkm
    rw [render_byte_no_param _ _ _ _ _ k hno]
    simp only [hkm, ne_eq, not_false_eq_true, if_true, true_and]
  · intro n e hn hc hfirst
    rw [render_byte_param _ _ _ _ _ k n e hn hc hfirst]
    exact ⟨rfl, rfl⟩

set_option maxRecDepth 1000000 in
/-- The byte colours at two inputs.  The word `0x12340780` of a stream that holds
the parameter `(type 0 "surface width", 0x780, 16)`, beside a stream whose
word is `0x12ff0780` (`find_pattern` returns mask 3, `0xff00ffff`): the high
byte is blue, the next byte, outside the shared mask, is black, and the two
low bytes are bold in the colour of "surface width".  The word `0x7c000100`
of a single stream without parameters: the three high bytes are in the colour
`0x990099` of the second known pattern, the low byte is blue. -/
theorem shared_branch_byte_colours_witness :
    (∃ bytes names, classify [tagged_stream, plain_stream 0x12ff0780] 0 0x12340780 0 zero_offsets =
        wordclass.shared bytes names ∧
      ∀ k, k < 4 → ∃ bo, bytes[k]? = some bo ∧
        bo.value = (0x12340780 &&& (0xff000000 >>> (8 * k))) >>> (24 - 8 * k) ∧
        ((∀ e, e ∈ param_matches (ctxAt [tagged_stream, plain_stream 0x12ff0780] 0) 0x12340780 →
            (0xff000000 >>> (8 * k)) &&& e.1 = 0) →
          (0xff000000 >>> (8 * k)) &&& (known_match 0x12340780).1 = 0 →
          bo.bold = false ∧
          bo.color = if patterns.getD 3 0 &&& (0xff000000 >>> (8 * k)) ≠ 0 then 0x0000ff
            else 0x000000) ∧
        ((∀ e, e ∈ param_matches (ctxAt [tagged_stream, plain_stream 0x12ff0780] 0) 0x12340780 →
            (0xff000000 >>> (8 * k)) &&& e.1 = 0) →
          (0xff000000 >>> (8 * k)) &&& (known_match 0x12340780).1 ≠ 0 →
          bo.bold = false ∧ bo.color = (known_match 0x12340780).2) ∧
        (∀ (n : Nat) (e : Nat × Nat × String),
          (param_matches (ctxAt [tagged_stream, plain_stream 0x12ff0780] 0) 0x12340780)[n]? = some e →
          (0xff000000 >>> (8 * k)) &&& e.1 ≠ 0 →
          (∀ (m : Nat) (e2 : Nat × Nat × String), m < n →
            (param_matches (ctxAt [tagged_stream, plain_stream 0x12ff0780] 0) 0x12340780)[m]? = some e2 →
            (0xff000000 >>> (8 * k)) &&& e2.1 = 0) →
          bo.bold = true ∧ bo.color = e.2.1)) ∧
    classify [tagged_stream, plain_stream 0x12ff0780] 0 0x12340780 0 zero_offsets =
      wordclass.shared
        [⟨false, 0x0000ff, 0x12⟩, ⟨false, 0x000000, 0x34⟩, ⟨true, 0xff1111, 0x07⟩,
         ⟨true, 0xff1111, 0x80⟩] ["surface width"] ∧
    (∃ bytes names, classify [plain_stream 0x7c000100] 0 0x7c000100 0 zero_offsets =
        wordclass.shared bytes names ∧
      ∀ k, k < 4 → ∃ bo, bytes[k]? = some bo ∧
        bo.value = (0x7c000100 &&& (0xff000000 >>> (8 * k))) >>> (24 - 8 * k) ∧
        ((∀ e, e ∈ param_matches (ctxAt [plain_stream 0x7c000100] 0) 0x7c000100 →
            (0xff000000 >>> (8 * k)) &&& e.1 = 0) →
          (0xff000000 >>> (8 * k)) &&& (known_match 0x7c000100).1 = 0 →
          bo.bold = false ∧
          bo.color = if patterns.getD 0 0 &&& (0xff000000 >>> (8 * k)) ≠ 0 then 0x0000ff
            else 0x000000) ∧
        ((∀ e, e ∈ param_matches (ctxAt [plain_stream 0x7c000100] 0) 0x7c000100 →
            (0xff000000 >>> (8 * k)) &&& e.1 = 0) →
          (0xff000000 >>> (8 * k)) &&& (known_match 0x7c000100).1 ≠ 0 →
          bo.bold = false ∧ bo.color = (known_match 0x7c000100).2) ∧
        (∀ (n : Nat) (e : Nat × Nat × String),
          (param_matches (ctxAt [plain_stream 0x7c000100] 0) 0x7c000100)[n]? = some e →
          (0xff000000 >>> (8 * k)) &&& e.1 ≠ 0 →
          (∀ (m : Nat) (e2 : Nat × Nat × String), m < n →
            (param_matches (ctxAt [plain_stream 0x7c000100] 0) 0x7c000100)[m]? = some e2 →
            (0xff000000 >>> (8 * k)) &&& e2.1 = 0) →
          bo.bold = true ∧ bo.color = e.2.1)) ∧
    classify [plain_stream 0x7c000100] 0 0x7c000100 0 zero_offsets =
      wordclass.shared
        [⟨false, 0x990099, 0x7c⟩, ⟨false, 0x990099, 0x00⟩, ⟨false, 0x990099, 0x01⟩,
         ⟨false, 0x0000ff, 0x00⟩] [] :=
  ⟨shared_branch_byte_colours [tagged_stream, plain_stream 0x12ff0780] 0 0x12340780 0 zero_offsets 3
    (by decide) (by decide) (by decide) (by decide) (by decide), by decide,
   shared_branch_byte_colours [plain_stream 0x7c000100] 0 0x7c000100 0 zero_offsets 0
    (by decide) (by decide) (by decide) (by decide) (by decide), by decide⟩

/-! ## Known patterns -/

theorem filterMap_map_eq_filter_map {α β γ : Type} (f : α → Option β) (g : β → γ)
    (h : α → γ) (hfg : ∀ a b, f a = some b → g b = h a) (l : List α) :
    (l.filterMap f).map g = (l.filter (fun a => (f a).isSome)).map h := by
  induction l with
  | nil => rfl
  | cons a l ih =>
    cases hfa : f a with
    | none => simp [List.filterMap_cons, List.filter_cons, hfa, ih]
    | some b => simp [List.filterMap_cons, List.filter_cons, hfa, ih, hfg a b hfa]

/-- In the embedding, where the stored entries are a list of any length, the
names listed by the shared-pattern branch are those of the parameters with a
stored entry (non-zero value and a match), one each, in the order of
announcement. -/
theorem param_matches_names (ctx : context) (dword : Nat) :
    (param_matches ctx dword).map (fun e => e.2.2) =
      ((List.range ctx.nparams).filter (fun j => (param_entry ctx dword j).isSome)).map
        (fun j => param_names.getD (ctx.params.getD j ⟨0, 0, 0⟩).type "") := by
  unfold param_matches
  apply filterMap_map_eq_filter_map
  intro j e he
  unfold param_entry at he
  simp only at he
  split_ifs at he
  cases hs : param_scan dword (ctx.params.getD j ⟨0, 0, 0⟩).val
      (ctx.params.getD j ⟨0, 0, 0⟩).bitlen with
  | none => rw [hs] at he; simp at he
  | some m =>
    rw [hs] at he
    simp only [Option.map_some', Option.some.injEq] at he
    rw [← he]

set_option maxRecDepth 1000000 in
/-- Claim C12, the code at five simultaneous matches.  A stream holds five
active parameters (well within the 32 a stream can hold), all of value 1920,
and the word 1920 takes the shared-pattern branch: the parameter loop stores
five entries, at the indices 0 to 4, while `pmasks`, `pcolors` and `pnames`
have 4 elements; the fifth store is outside the arrays. -/
theorem param_labels_overflow_at_five :
    five_params_stream.nparams = 5 ∧
    find_gpuaddr (ctxAt [five_params_stream] 0) 1920 = -1 ∧
    find_pattern [five_params_stream] 1920 0 zero_offsets = 0 ∧
    (param_matches five_params_stream 1920).length = 5 ∧
    pmasks_size = 4 ∧
    param_store_overflow five_params_stream 1920 = true := by
  decide

/-! ## The rank of a position without a common address -/

/-- Claim C14, as the code has it.  At a global index where no stream is
exhausted: if stream 0's word is not in stream 0's address list, the rank of
the position is `11 - 1 - j` when `find_pattern` returns the mask index `j`
for that word and 0 when it returns -1; if stream 0's word is in its address
list and the streams do not all resolve their words to that index, the rank
is 0 and `find_pattern` is not consulted.  `find_rank` adds half of
`find_rank` at the next index. -/
theorem rank_by_pattern (cs : List context) (i : Int) (offsets : List Int)
    (hne : 0 < cs.length)
    (hin : ∀ k, k < cs.length → i < (ctxAt cs k).sz.tdiv 4 + offAt offsets k) :
    (find_gpuaddr (ctxAt cs 0) (wordAt cs 0 i offsets) = -1 →
      ∀ j : Nat, find_pattern cs (wordAt cs 0 i offsets) i offsets = (j : Int) →
        rank_at cs i offsets = 11 - 1 - (j : Int)) ∧
    (find_gpuaddr (ctxAt cs 0) (wordAt cs 0 i offsets) = -1 →
      find_pattern cs (wordAt cs 0 i offsets) i offsets = -1 →
        rank_at cs i offsets = 0) ∧
    (0 ≤ find_gpuaddr (ctxAt cs 0) (wordAt cs 0 i offsets) →
      (¬ ∀ k, k < cs.length → find_gpuaddr (ctxAt cs k) (wordAt cs k i offsets) =
        find_gpuaddr (ctxAt cs 0) (wordAt cs 0 i offsets)) →
      rank_at cs i offsets = 0) ∧
    find_rank cs i offsets = rank_at cs i offsets + (find_rank cs (i + 1) offsets).tdiv 2 := by
  refine ⟨?_, ?_, ?_, ?_⟩
  · intro hg j hj
    unfold rank_at
    simp only [hg, hj]
    rw [if_neg (by decide), if_pos (by omega), patterns_length]
  · intro hg hj
    unfold rank_at
    simp only [hg, hj]
    rw [if_neg (by decide), if_neg (by decide)]
  · intro hg hdiff
    unfold rank_at
    simp only
    rw [if_pos hg, if_neg (fun h => hdiff ((all_gpuaddr_iff cs _ i offsets).mp h))]
  · rw [find_rank_unfold cs i offsets hne, if_neg ((not_past_end_iff cs i offsets).mpr hin)]

set_option maxRecDepth 1000000 in
/-- Two streams holding the words 5 and 7, without announced addresses:
`find_pattern` returns the mask index 1 (`0xffffff00`) and the rank of
position 0 is 9. -/
theorem rank_by_pattern_witness :
    find_pattern [plain_stream 5, plain_stream 7] 5 0 zero_offsets = 1 ∧
    rank_at [plain_stream 5, plain_stream 7] 0 zero_offsets = 9 :=
  ⟨by decide,
    (rank_by_pattern [plain_stream 5, plain_stream 7] 0 zero_offsets (by decide)
      (by decide)).1 (by decide) 1 (by decide)⟩

set_option maxRecDepth 1000000 in
/-- Claim C14 as stated fails.  Two streams hold the word 5; stream 0 has
announced 5 as an address, stream 1 has not, so the words do not all resolve
to the same address index; no stream is exhausted at index 0 and
`find_pattern` returns the mask index 0 for stream 0's word; yet the rank of
the position is 0, not `11 - 1 - 0`. -/
theorem rank_zero_despite_shared_mask :
    (∀ k, k < [known_stream 5, plain_stream 5].length →
      (0 : Int) < (ctxAt [known_stream 5, plain_stream 5] k).sz.tdiv 4 +
        offAt zero_offsets k) ∧
    find_gpuaddr (ctxAt [known_stream 5, plain_stream 5] 0)
      (wordAt [known_stream 5, plain_stream 5] 0 0 zero_offsets) = 0 ∧
    find_gpuaddr (ctxAt [known_stream 5, plain_stream 5] 1)
      (wordAt [known_stream 5, plain_stream 5] 1 0 zero_offsets) = -1 ∧
    find_pattern [known_stream 5, plain_stream 5]
      (wordAt [known_stream 5, plain_stream 5] 0 0 zero_offsets) 0 zero_offsets = 0 ∧
    rank_at [known_stream 5, plain_stream 5] 0 zero_offsets = 0 ∧
    rank_at [known_stream 5, plain_stream 5] 0 zero_offsets ≠ 11 - 1 - 0 := by
  decide

/-! ## Bounds on find_rank -/

theorem tdiv_two_of_nonneg (x : Int) (h : 0 ≤ x) : x.tdiv 2 = x / 2 :=
  Int.tdiv_eq_ediv h (by decide)

/-- The rank of a position is between 0 and 11. -/
theorem rank_at_bounds (cs : List context) (i : Int) (offsets : List Int) :
    0 ≤ rank_at cs i offsets ∧ rank_at cs i offsets ≤ 11 := by
  unfold rank_at
  simp only [patterns_length]
  split_ifs with h1 h2 h3
  · omega
  · omega
  · rcases find_pattern_range cs (wordAt cs 0 i offsets) i offsets with hn | ⟨j, hj, hjeq⟩
    · omega
    · have : j < 11 := hj
      omega
  · omega

theorem find_rank_aux_bounds (cs : List context) (offsets : List Int) :
    ∀ (fuel : Nat) (i : Int),
      0 ≤ find_rank_aux cs offsets fuel i ∧ find_rank_aux cs offsets fuel i ≤ 21 := by
  intro fuel
  induction fuel with
  | zero => intro i; simp [find_rank_aux]
  | succ n ih =>
    intro i
    simp only [find_rank_aux]
    split_ifs
    · omega
    · have h1 := rank_at_bounds cs i offsets
      have h2 := ih (i + 1)
      rw [tdiv_two_of_nonneg _ h2.1]
      omega

/-- Claim C18.  For at least one stream, every global index and every offsets
vector: `find_rank` is not negative, it is at most `(11 + 1)` plus half
(integer division) of `find_rank` at the next index, and it is below
`2 * (11 + 1) = 24`. -/
theorem find_rank_bounds (cs : List context) (i : Int) (offsets : List Int)
    (hne : 0 < cs.length) :
    0 ≤ find_rank cs i offsets ∧
    find_rank cs i offsets ≤ (11 + 1) + (find_rank cs (i + 1) offsets).tdiv 2 ∧
    find_rank cs i offsets < 2 * (11 + 1) := by
  have h1 := find_rank_aux_bounds cs offsets (rank_fuel cs i offsets) i
  have h2 := find_rank_aux_bounds cs offsets (rank_fuel cs (i + 1) offsets) (i + 1)
  have h3 := rank_at_bounds cs i offsets
  refine ⟨h1.1, ?_, ?_⟩
  · rw [find_rank_unfold cs i offsets hne]
    have h4 : 0 ≤ find_rank cs (i + 1) offsets := h2.1
    rw [tdiv_two_of_nonneg _ h4]
    split_ifs
    · omega
    · omega
  · have : find_rank cs i offsets ≤ 21 := h1.2
    omega

set_option maxRecDepth 1000000 in
/-- In the insertion scenario `find_rank` at index 0 is 10, within the bound
`12 + 0 / 2`. -/
theorem find_rank_bounds_witness :
    find_rank [stream_A 0, stream_B 0] 0 zero_offsets = 10 ∧
    find_rank [stream_A 0, stream_B 0] (0 + 1) zero_offsets = 0 ∧
    (0 ≤ find_rank [stream_A 0, stream_B 0] 0 zero_offsets ∧
      find_rank [stream_A 0, stream_B 0] 0 zero_offsets ≤
        (11 + 1) + (find_rank [stream_A 0, stream_B 0] (0 + 1) zero_offsets).tdiv 2 ∧
      find_rank [stream_A 0, stream_B 0] 0 zero_offsets < 2 * (11 + 1)) :=
  ⟨by decide, by decide, find_rank_bounds [stream_A 0, stream_B 0] 0 zero_offsets (by decide)⟩

/-! ## Termination of find_rank -/

theorem foldl_min_le_iff (f : Nat → Int) (x : Int) :
    ∀ (l : List Nat) (init : Int),
      l.foldl (fun m k => min m (f k)) init ≤ x ↔ init ≤ x ∨ ∃ k, k ∈ l ∧ f k ≤ x := by
  intro l
  induction l with
  | nil => intro init; simp
  | cons a l ih =>
    intro init
    rw [List.foldl_cons, ih]
    constructor
    · rintro (h | ⟨k, hk, h⟩)
      · rcases min_le_iff.mp h with h1 | h1
        · left; exact h1
        · right; exact ⟨a, List.mem_cons_self _ _, h1⟩
      · right; exact ⟨k, List.mem_cons_of_mem _ hk, h⟩
    · rintro (h | ⟨k, hk, h⟩)
      · left; exact min_le_iff.mpr (Or.inl h)
      · rcases List.mem_cons.mp hk with rfl | hk
        · left; exact min_le_iff.mpr (Or.inr h)
        · right; exact ⟨k, hk, h⟩

/-- The quantity `min_end` is at most `x` exactly when some stream ends at or
before `x`. -/
theorem min_end_le_iff (cs : List context) (offsets : List Int) (x : Int)
    (hne : 0 < cs.length) :
    min_end cs offsets ≤ x ↔
      ∃ k, k < cs.length ∧ (ctxAt cs k).sz.tdiv 4 + offAt offsets k ≤ x := by
  unfold min_end
  rw [foldl_min_le_iff (fun k => (ctxAt cs k).sz.tdiv 4 + offAt offsets k)]
  constructor
  · rintro (h | ⟨k, hk, h⟩)
    · exact ⟨0, hne, h⟩
    · exact ⟨k, List.mem_range.mp hk, h⟩
  · rintro ⟨k, hk, h⟩
    right; exact ⟨k, List.mem_range.mpr hk, h⟩

theorem past_end_iff_min_end (cs : List context) (i : Int) (offsets : List Int)
    (hne : 0 < cs.length) :
    past_end cs i offsets = true ↔ min_end cs offsets - i ≤ 0 := by
  rw [past_end_iff, ← min_end_le_iff cs offsets i hne]
  omega

theorem rank_depth_eq (cs : List context) (offsets : List Int) (hne : 0 < cs.length) :
    ∀ (fuel : Nat) (i : Int), (min_end cs offsets - i).toNat ≤ fuel →
      rank_depth cs offsets fuel i = some (min_end cs offsets - i).toNat := by
  intro fuel
  induction fuel with
  | zero =>
    intro i h
    have hp : past_end cs i offsets = true :=
      (past_end_iff_min_end cs i offsets hne).mpr (by omega)
    simp only [rank_depth, hp, if_true]
    congr 1; omega
  | succ f ih =>
    intro i h
    by_cases hp : past_end cs i offsets = true
    · have := (past_end_iff_min_end cs i offsets hne).mp hp
      simp only [rank_depth, hp, if_true]
      congr 1; omega
    · have hlt : ¬ min_end cs offsets - i ≤ 0 :=
        fun h2 => hp ((past_end_iff_min_end cs i offsets hne).mpr h2)
      simp only [rank_depth]
      rw [if_neg hp, ih (i + 1) (by omega)]
      simp only [Option.map_some', Option.some.injEq]
      omega

theorem find_rank_aux_enough (cs : List context) (offsets : List Int) (hne : 0 < cs.length) :
    ∀ (fuel : Nat) (i : Int), (min_end cs offsets - i).toNat ≤ fuel →
      find_rank_aux cs offsets fuel i =
        find_rank_aux cs offsets (min_end cs offsets - i).toNat i := by
  intro fuel
  induction fuel with
  | zero =>
    intro i h
    have : (min_end cs offsets - i).toNat = 0 := by omega
    rw [this]
  | succ f ih =>
    intro i h
    by_cases hp : past_end cs i offsets = true
    · have h0 : (min_end cs offsets - i).toNat = 0 := by
        have := (past_end_iff_min_end cs i offsets hne).mp hp
        omega
      rw [h0]
      simp [find_rank_aux, hp]
    · have hlt : ¬ min_end cs offsets - i ≤ 0 :=
        fun h2 => hp ((past_end_iff_min_end cs i offsets hne).mpr h2)
      have hr : (min_end cs offsets - i).toNat =
          (min_end cs offsets - (i + 1)).toNat + 1 := by omega
      rw [hr]
      simp only [find_rank_aux]
      rw [if_neg hp, if_neg hp, ih (i + 1) (by omega)]

/-- Claim C19.  For at least one stream, every global index `i` and every
offsets vector, with `q = min_end - i` (the minimum over the streams of
`sz_k/4 + offsets[k]`, minus `i`): the base case of `find_rank` is taken
exactly when `q <= 0` and returns 0; the recursive call, at `i + 1`, has the
quantity `q - 1`; the recursion reaches the base case after exactly
`max q 0` calls, and any bound on the depth that is at least that gives the
value of `find_rank`. -/
theorem find_rank_terminates (cs : List context) (i : Int) (offsets : List Int)
    (hne : 0 < cs.length) :
    (past_end cs i offsets = true ↔ min_end cs offsets - i ≤ 0) ∧
    (past_end cs i offsets = true → find_rank cs i offsets = 0) ∧
    min_end cs offsets - (i + 1) = (min_end cs offsets - i) - 1 ∧
    (∀ fuel, (min_end cs offsets - i).toNat ≤ fuel →
      rank_depth cs offsets fuel i = some (min_end cs offsets - i).toNat) ∧
    (∀ fuel, (min_end cs offsets - i).toNat ≤ fuel →
      find_rank_aux cs offsets fuel i = find_rank cs i offsets) := by
  refine ⟨past_end_iff_min_end cs i offsets hne, ?_, by omega,
    fun fuel h => rank_depth_eq cs offsets hne fuel i h, ?_⟩
  · intro hp
    rw [find_rank_unfold cs i offsets hne, if_pos hp]
  · intro fuel h
    have h0 : min_end cs offsets ≤ (ctxAt cs 0).sz.tdiv 4 + offAt offsets 0 :=
      (min_end_le_iff cs offsets _ hne).mpr ⟨0, hne, le_refl _⟩
    have h1 : (min_end cs offsets - i).toNat ≤ rank_fuel cs i offsets := by
      unfold rank_fuel; omega
    unfold find_rank
    rw [find_rank_aux_enough cs offsets hne fuel i h,
      find_rank_aux_enough cs offsets hne _ i h1]

set_option maxRecDepth 1000000 in
/-- In the insertion scenario the shortest stream ends at index 3: from index
0 the recursion makes 3 calls before the base case. -/
theorem find_rank_terminates_witness :
    min_end [stream_A 0, stream_B 0] zero_offsets = 3 ∧
    rank_depth [stream_A 0, stream_B 0] zero_offsets 3 0 = some 3 ∧
    ((past_end [stream_A 0, stream_B 0] 0 zero_offsets = true ↔
        min_end [stream_A 0, stream_B 0] zero_offsets - 0 ≤ 0) ∧
      (past_end [stream_A 0, stream_B 0] 0 zero_offsets = true →
        find_rank [stream_A 0, stream_B 0] 0 zero_offsets = 0) ∧
      min_end [stream_A 0, stream_B 0] zero_offsets - (0 + 1) =
        (min_end [stream_A 0, stream_B 0] zero_offsets - 0) - 1 ∧
      (∀ fuel, (min_end [stream_A 0, stream_B 0] zero_offsets - 0).toNat ≤ fuel →
        rank_depth [stream_A 0, stream_B 0] zero_offsets fuel 0 =
          some (min_end [stream_A 0, stream_B 0] zero_offsets - 0).toNat) ∧
      (∀ fuel, (min_end [stream_A 0, stream_B 0] zero_offsets - 0).toNat ≤ fuel →
        find_rank_aux [stream_A 0, stream_B 0] zero_offsets fuel 0 =
          find_rank [stream_A 0, stream_B 0] 0 zero_offsets)) :=
  ⟨by decide, by decide,
    find_rank_terminates [stream_A 0, stream_B 0] 0 zero_offsets (by decide)⟩

/-! ## The offsets stay within the longest record -/

theorem offAt_zero_offsets (k : Nat) : offAt zero_offsets k = 0 := by
  unfold offAt zero_offsets
  rw [List.getD_eq_getElem?_getD, List.getElem?_replicate]
  split_ifs <;> rfl

theorem tdiv_four_mono (a b : Int) (hab : a ≤ b) (hb : 0 ≤ b) : a.tdiv 4 ≤ b.tdiv 4 := by
  by_cases ha : 0 ≤ a
  · rw [Int.tdiv_eq_ediv ha (by decide), Int.tdiv_eq_ediv hb (by decide)]
    omega
  · have h1 : a.tdiv 4 ≤ 0 := by
      have h2 : a.tdiv 4 = -((-a).tdiv 4) := by rw [Int.neg_tdiv, neg_neg]
      rw [h2, Int.tdiv_eq_ediv (by omega) (by decide)]
      omega
    rw [Int.tdiv_eq_ediv hb (by decide)]
    omega

theorem foldl_max_sz_ge (f : Nat → Int) :
    ∀ (l : List Nat) (init : Int),
      init ≤ l.foldl (fun m k => if f k > m then f k else m) init ∧
      ∀ k, k ∈ l → f k ≤ l.foldl (fun m k => if f k > m then f k else m) init := by
  intro l
  induction l with
  | nil => intro init; simp
  | cons a l ih =>
    intro init
    rw [List.foldl_cons]
    obtain ⟨h1, h2⟩ := ih (if f a > init then f a else init)
    have h3 : init ≤ (if f a > init then f a else init) := by split_ifs <;> omega
    have h4 : f a ≤ (if f a > init then f a else init) := by split_ifs <;> omega
    constructor
    · exact le_trans h3 h1
    · intro k hk
      rcases List.mem_cons.mp hk with rfl | hk
      · exact le_trans h4 h1
      · exact h2 k hk

/-- The value `max_sz` is not negative and at least every stream's `sz`. -/
theorem max_sz_ge (cs : List context) :
    0 ≤ max_sz cs ∧ ∀ k, k < cs.length → (ctxAt cs k).sz ≤ max_sz cs := by
  obtain ⟨h1, h2⟩ := foldl_max_sz_ge (fun k => (ctxAt cs k).sz) (List.range cs.length) 0
  exact ⟨h1, fun k hk => h2 k (List.mem_range.mpr hk)⟩

theorem adjust_fold_within (cs : List context) (i : Int) :
    ∀ (ks : List Nat) (st : List Int × List Int × Int),
      st.2.1 = st.1 → st.2.2 = find_rank cs i st.1 →
      (∀ k, k < cs.length →
        (ctxAt cs k).sz.tdiv 4 + offAt st.1 k ≤ (max_sz cs).tdiv 4) →
      ∀ k, k < cs.length →
        (ctxAt cs k).sz.tdiv 4 + offAt (ks.foldl (adjust_step cs i) st).1 k ≤
          (max_sz cs).tdiv 4 := by
  intro ks
  induction ks with
  | nil => intro st _ _ h; exact h
  | cons k0 rest ih =>
    intro st h1 h2 h
    rw [List.foldl_cons]
    rcases adjust_step_cases cs i st k0 h1 h2 with ⟨hs, -⟩ | ⟨hs, hel, -⟩
    · rw [hs]; exact ih st h1 h2 h
    · rw [hs]
      apply ih _ rfl rfl
      intro k hk
      simp only
      by_cases hkk : k0 = k
      · subst hkk
        by_cases hlen : k0 < st.1.length
        · rw [offAt_set_eq _ _ _ hlen]
          have : (ctxAt cs k0).sz.tdiv 4 + offAt st.1 k0 < (max_sz cs).tdiv 4 := by
            simpa [eligible] using hel
          omega
        · rw [set_short _ _ _ (by omega)]; exact h k0 hk
      · rw [offAt_set_ne _ _ _ _ hkk]; exact h k hk

/-- A call of `adjust_offsets` keeps every stream's `sz/4 + offsets[k]` at
most `max_sz/4`. -/
theorem adjust_offsets_within (cs : List context) (i : Int) (offsets : List Int)
    (h : ∀ k, k < cs.length →
      (ctxAt cs k).sz.tdiv 4 + offAt offsets k ≤ (max_sz cs).tdiv 4) :
    ∀ k, k < cs.length →
      (ctxAt cs k).sz.tdiv 4 + offAt (adjust_offsets cs i offsets) k ≤ (max_sz cs).tdiv 4 :=
  adjust_fold_within cs i (List.range cs.length)
    (offsets, offsets, find_rank cs i offsets) rfl rfl h

theorem zero_offsets_within (cs : List context) :
    ∀ k, k < cs.length →
      (ctxAt cs k).sz.tdiv 4 + offAt zero_offsets k ≤ (max_sz cs).tdiv 4 := by
  intro k hk
  obtain ⟨h0, h1⟩ := max_sz_ge cs
  rw [offAt_zero_offsets, add_zero]
  exact tdiv_four_mono _ _ (h1 k hk) h0

/-- An entry of the vector is not decreased by `adjust_offsets`. -/
theorem adjust_offsets_ge (cs : List context) (i : Int) (offsets : List Int) (k : Nat) :
    offAt offsets k ≤ offAt (adjust_offsets cs i offsets) k := by
  obtain ⟨-, -, -, -, e⟩ := adjust_fold_spec cs i (List.range cs.length)
    (offsets, offsets, find_rank cs i offsets) rfl rfl
  have e2 := e (List.nodup_range _) k
  simp only at e2
  unfold adjust_offsets
  rcases e2 with h | ⟨-, h⟩ <;> omega

theorem hexdump_loop_fillers (cs : List context) (idx : Nat) :
    ∀ (n : Nat) (i : Int) (offsets : List Int),
      (∀ w, w ∈ hexdump_loop cs idx n i (offAt offsets idx) offsets → 0 ≤ w.fillers) ∧
      ((hexdump_loop cs idx n i (offAt offsets idx) offsets).map (fun w => w.fillers)).sum =
        offAt (hexdump_final cs idx n i (offAt offsets idx) offsets) idx -
          offAt offsets idx := by
  intro n
  induction n with
  | zero => intro i offsets; simp [hexdump_loop, hexdump_final]
  | succ n ih =>
    intro i offsets
    obtain ⟨h1, h2⟩ := ih (i + 1) (adjust_offsets cs (i + offAt offsets idx) offsets)
    have hge := adjust_offsets_ge cs (i + offAt offsets idx) offsets idx
    simp only [hexdump_loop, hexdump_final, List.mem_cons, List.map_cons, List.sum_cons]
    constructor
    · rintro w (rfl | hw)
      · simp only; omega
      · exact h1 w hw
    · rw [h2]; omega

theorem hexdump_final_within (cs : List context) (idx : Nat) :
    ∀ (n : Nat) (i offset : Int) (offsets : List Int),
      (∀ k, k < cs.length →
        (ctxAt cs k).sz.tdiv 4 + offAt offsets k ≤ (max_sz cs).tdiv 4) →
      ∀ k, k < cs.length →
        (ctxAt cs k).sz.tdiv 4 + offAt (hexdump_final cs idx n i offset offsets) k ≤
          (max_sz cs).tdiv 4 := by
  intro n
  induction n with
  | zero => intro i offset offsets h; exact h
  | succ n ih =>
    intro i offset offsets h
    simp only [hexdump_final]
    exact ih _ _ _ (adjust_offsets_within cs _ offsets h)

theorem filler_count_cast (ws : List word_out) (h : ∀ w, w ∈ ws → 0 ≤ w.fillers) :
    ((filler_count ws : Nat) : Int) = (ws.map (fun w => w.fillers)).sum := by
  unfold filler_count
  induction ws with
  | nil => rfl
  | cons a l ih =>
    simp only [List.map_cons, List.sum_cons, Nat.cast_add]
    rw [ih (fun w hw => h w (List.mem_cons_of_mem _ hw))]
    have := h a (List.mem_cons_self _ _)
    omega

/-- Claim C20. Starting from the all-zero vector, after any sequence of
`adjust_offsets` calls (at any global indices `calls`) every stream `k`
satisfies `sz_k/4 + offsets[k] <= max_sz/4`; in the scan of stream `idx` no
filler count `offsets[idx] - offset` is negative, the number of filler lines
printed equals the final `offsets[idx]`, is at most `max_sz/4 - sz_idx/4`,
and is zero for a stream whose `sz` is `max_sz`. -/
theorem offsets_within_longest_record (cs : List context) (idx : Nat)
    (hidx : idx < cs.length) :
    (∀ (calls : List Int) (k : Nat), k < cs.length →
      (ctxAt cs k).sz.tdiv 4 +
          offAt (calls.foldl (fun o i => adjust_offsets cs i o) zero_offsets) k ≤
        (max_sz cs).tdiv 4) ∧
    (∀ w, w ∈ handle_hexdump cs idx → 0 ≤ w.fillers) ∧
    ((filler_count (handle_hexdump cs idx) : Nat) : Int) = offAt (scan_final cs idx) idx ∧
    ((filler_count (handle_hexdump cs idx) : Nat) : Int) ≤
      (max_sz cs).tdiv 4 - (ctxAt cs idx).sz.tdiv 4 ∧
    ((ctxAt cs idx).sz = max_sz cs → filler_count (handle_hexdump cs idx) = 0) := by
  have hinv : ∀ (calls : List Int) (o : List Int),
      (∀ k, k < cs.length → (ctxAt cs k).sz.tdiv 4 + offAt o k ≤ (max_sz cs).tdiv 4) →
      ∀ k, k < cs.length →
        (ctxAt cs k).sz.tdiv 4 + offAt (calls.foldl (fun o i => adjust_offsets cs i o) o) k ≤
          (max_sz cs).tdiv 4 := by
    intro calls
    induction calls with
    | nil => intro o h; exact h
    | cons c rest ih =>
      intro o h
      rw [List.foldl_cons]
      exact ih _ (adjust_offsets_within cs c o h)
  obtain ⟨hpos, hsum⟩ := hexdump_loop_fillers cs idx ((ctxAt cs idx).sz.tdiv 4).toNat 0
    zero_offsets
  rw [offAt_zero_offsets] at hpos hsum
  have hfin := hexdump_final_within cs idx ((ctxAt cs idx).sz.tdiv 4).toNat 0 0 zero_offsets
    (zero_offsets_within cs) idx hidx
  have hcount : ((filler_count (handle_hexdump cs idx) : Nat) : Int) =
      offAt (scan_final cs idx) idx := by
    unfold handle_hexdump scan_final
    rw [filler_count_cast _ hpos, hsum]; omega
  refine ⟨fun calls => hinv calls zero_offsets (zero_offsets_within cs), hpos, hcount, ?_, ?_⟩
  · rw [hcount]; unfold scan_final; omega
  · intro hmax
    have hm : (ctxAt cs idx).sz.tdiv 4 = (max_sz cs).tdiv 4 := by rw [hmax]
    have h1 : ((filler_count (handle_hexdump cs idx) : Nat) : Int) ≤ 0 := by
      rw [hcount]; unfold scan_final; omega
    omega

/-- Claim C20 at the insertion scenario: the scan of the shorter stream A
prints one filler line, the final `offsets[0]`, which is
`max_sz/4 - sz_A/4 = 4 - 3`. -/
theorem offsets_within_longest_record_witness :
    (0 : Nat) < [stream_A 0, stream_B 0].length ∧
    filler_count (handle_hexdump [stream_A 0, stream_B 0] 0) = 1 ∧
    offAt (scan_final [stream_A 0, stream_B 0] 0) 0 = 1 ∧
    (max_sz [stream_A 0, stream_B 0]).tdiv 4 -
      (ctxAt [stream_A 0, stream_B 0] 0).sz.tdiv 4 = 1 ∧
    filler_count (handle_hexdump [stream_A 0, stream_B 0] 1) = 0 := by
  have h := offsets_within_longest_record [stream_A 0, stream_B 0] 0 (by decide)
  have h1 : offAt (scan_final [stream_A 0, stream_B 0] 0) 0 = 1 := by
    set_option maxRecDepth 1000000 in decide
  have h2 : (max_sz [stream_A 0, stream_B 0]).tdiv 4 -
      (ctxAt [stream_A 0, stream_B 0] 0).sz.tdiv 4 = 1 := by decide
  have h3 : filler_count (handle_hexdump [stream_A 0, stream_B 0] 1) = 0 := by
    set_option maxRecDepth 1000000 in decide
  refine ⟨by decide, ?_, h1, h2, h3⟩
  have := h.2.2.1
  rw [h1] at this
  exact_mod_cast this

/-! ## One vector per scan -/

/-- The trace lists the global index and vector with which each iteration of
the word loop classifies its word. -/
theorem hexdump_loop_trace (cs : List context) (idx : Nat) :
    ∀ (n : Nat) (i offset : Int) (offsets : List Int) (m : Nat) (gi : Int) (o : List Int),
      (hexdump_trace cs idx n i offset offsets)[m]? = some (gi, o) →
      ∃ f, (hexdump_loop cs idx n i offset offsets)[m]? =
        some ⟨f, classify cs idx ((ctxAt cs idx).buf (i + m)) gi o⟩ := by
  intro n
  induction n with
  | zero => intro i offset offsets m gi o h; simp [hexdump_trace] at h
  | succ n ih =>
    intro i offset offsets m gi o h
    cases m with
    | zero =>
      simp only [hexdump_trace, List.getElem?_cons_zero, Option.some.injEq,
        Prod.mk.injEq] at h
      obtain ⟨h1, h2⟩ := h
      refine ⟨offAt (adjust_offsets cs (i + offset) offsets) idx - offset, ?_⟩
      simp only [hexdump_loop, List.getElem?_cons_zero, Nat.cast_zero, add_zero]
      rw [h1, h2]
    | succ m =>
      simp only [hexdump_trace, List.getElem?_cons_succ] at h
      obtain ⟨f, hf⟩ := ih _ _ _ m gi o h
      refine ⟨f, ?_⟩
      simp only [hexdump_loop, List.getElem?_cons_succ]
      rw [hf]
      have : i + 1 + (m : Int) = i + ((m + 1 : Nat) : Int) := by push_cast; ring
      rw [this]

/-- While a scan renders its words at their own indices (its entry of the
vector is still zero), its vector is the one obtained by calling
`adjust_offsets` at each index in turn. -/
theorem hexdump_trace_plain (cs : List context) (idx : Nat) :
    ∀ (m n : Nat) (i : Int) (offsets : List Int),
      (∀ j, j ≤ m →
        ((hexdump_trace cs idx n i 0 offsets)[j]?).map Prod.fst = some (i + (j : Int))) →
      (hexdump_trace cs idx n i 0 offsets)[m]? =
        some (i + (m : Int), plain_calls cs (m + 1) i offsets) := by
  intro m
  induction m with
  | zero =>
    intro n i offsets h
    have h0 := h 0 (le_refl 0)
    cases n with
    | zero => simp [hexdump_trace] at h0
    | succ n =>
      simp only [hexdump_trace, List.getElem?_cons_zero, Option.map_some', Option.some.injEq,
        add_zero, Nat.cast_zero] at h0 ⊢
      simp only [plain_calls, Prod.mk.injEq, and_true]
      exact h0
  | succ m ih =>
    intro n i offsets h
    have h0 := h 0 (Nat.zero_le _)
    cases n with
    | zero => simp [hexdump_trace] at h0
    | succ n =>
      simp only [hexdump_trace, List.getElem?_cons_zero, Option.map_some', Option.some.injEq,
        add_zero, Nat.cast_zero] at h0
      have hz : offAt (adjust_offsets cs i offsets) idx = 0 := by omega
      have hrest : ∀ j, j ≤ m →
          ((hexdump_trace cs idx n (i + 1) 0 (adjust_offsets cs i offsets))[j]?).map Prod.fst =
            some (i + 1 + (j : Int)) := by
        intro j hj
        have hj1 := h (j + 1) (by omega)
        simp only [hexdump_trace, List.getElem?_cons_succ, add_zero] at hj1
        rw [hz] at hj1
        rw [hj1]
        congr 1
        push_cast; ring
      have := ih n (i + 1) (adjust_offsets cs i offsets) hrest
      simp only [hexdump_trace, List.getElem?_cons_succ, add_zero]
      rw [hz, this]
      simp only [plain_calls]
      congr 2
      push_cast; ring

/-- Claim C16, counterexample. In the repeated-word scenario (stream A holds
`a, d`, stream B holds `a, a, a, d`, the word before each buffer is 0) the
scan of A renders its word 1 at global index 2 with the vector `[1, 0, ..]`,
and the scan of B renders its word 2 at global index 2 with the vector
`[2, 0, ..]`: each call of `handle_hexdump` has its own `offsets`. -/
theorem scans_disagree_at_global_index_two :
    (scan_trace [stream_short, stream_long] 0)[1]? = some (2, zero_offsets.set 0 1) ∧
    (scan_trace [stream_short, stream_long] 1)[2]? = some (2, zero_offsets.set 0 2) ∧
    zero_offsets.set 0 1 ≠ zero_offsets.set 0 2 := by
  set_option maxRecDepth 1000000 in decide

/-- Claim C16, amended. Each scan starts its own vector from zero; for two
streams `s` and `t` whose scans have both rendered their words `0..m` at the
global indices `0..m` (neither scan has yet moved its own stream), the two
scans have the same vector at global index `m`: the one obtained by calling
`adjust_offsets` at the global indices `0, 1, .., m` from the zero vector. -/
theorem scans_agree_before_own_skip (cs : List context) (s t m : Nat)
    (hs : ∀ j, j ≤ m → ((scan_trace cs s)[j]?).map Prod.fst = some (j : Int))
    (ht : ∀ j, j ≤ m → ((scan_trace cs t)[j]?).map Prod.fst = some (j : Int)) :
    (scan_trace cs s)[m]? = some ((m : Int), plain_calls cs (m + 1) 0 zero_offsets) ∧
    (scan_trace cs t)[m]? = some ((m : Int), plain_calls cs (m + 1) 0 zero_offsets) := by
  constructor
  · have := hexdump_trace_plain cs s m ((ctxAt cs s).sz.tdiv 4).toNat 0 zero_offsets
      (by intro j hj; rw [zero_add]; exact hs j hj)
    rw [zero_add] at this
    exact this
  · have := hexdump_trace_plain cs t m ((ctxAt cs t).sz.tdiv 4).toNat 0 zero_offsets
      (by intro j hj; rw [zero_add]; exact ht j hj)
    rw [zero_add] at this
    exact this

/-- Claim C16, amended, at three streams: the record of stream A of the
insertion scenario beside two streams that both hold the record of stream B.
The scans of streams 1 and 2 render their words 0 to 3 at the global indices
0 to 3, and at global index 3 both have the vector `[1, 0, 0, ..]` in which
stream A has been moved by one word. -/
theorem scans_agree_before_own_skip_witness :
    (∀ j : Nat, j ≤ 3 →
      ((scan_trace [stream_A 0, stream_B 0, stream_B 0] 1)[j]?).map Prod.fst = some (j : Int)) ∧
    (∀ j : Nat, j ≤ 3 →
      ((scan_trace [stream_A 0, stream_B 0, stream_B 0] 2)[j]?).map Prod.fst = some (j : Int)) ∧
    (scan_trace [stream_A 0, stream_B 0, stream_B 0] 1)[3]? =
      some (((3 : Nat) : Int), plain_calls [stream_A 0, stream_B 0, stream_B 0] (3 + 1) 0 zero_offsets) ∧
    (scan_trace [stream_A 0, stream_B 0, stream_B 0] 2)[3]? =
      some (((3 : Nat) : Int), plain_calls [stream_A 0, stream_B 0, stream_B 0] (3 + 1) 0 zero_offsets) ∧
    plain_calls [stream_A 0, stream_B 0, stream_B 0] (3 + 1) 0 zero_offsets = zero_offsets.set 0 1 :=
  have h1 : ∀ j : Nat, j ≤ 3 →
      ((scan_trace [stream_A 0, stream_B 0, stream_B 0] 1)[j]?).map Prod.fst = some (j : Int) := by
    intro j hj
    interval_cases j <;> (set_option maxRecDepth 1000000 in decide)
  have h2 : ∀ j : Nat, j ≤ 3 →
      ((scan_trace [stream_A 0, stream_B 0, stream_B 0] 2)[j]?).map Prod.fst = some (j : Int) := by
    intro j hj
    interval_cases j <;> (set_option maxRecDepth 1000000 in decide)
  ⟨h1, h2, (scans_agree_before_own_skip [stream_A 0, stream_B 0, stream_B 0] 1 2 3 h1 h2).1,
    (scans_agree_before_own_skip [stream_A 0, stream_B 0, stream_B 0] 1 2 3 h1 h2).2,
    by set_option maxRecDepth 1000000 in decide⟩

/-! ## Reads outside the record buffer -/

/-- The word `find_rank` and `find_pattern` compare for stream `k` is the
one at `read_index`. -/
theorem wordAt_read_index (cs : List context) (k : Nat) (i : Int) (offsets : List Int) :
    wordAt cs k i offsets = (ctxAt cs k).buf (read_index i offsets k) := rfl

set_option maxRecDepth 1000000 in
/-- Claim C15, failing inputs. In the insertion scenario `adjust_offsets` at
global index 0 finds the shorter stream A eligible, and `find_rank` under the
tentative vector `[1, 0, ..]` is not past the end and reads A's buffer at
word index `0 - 1`, before the buffer; the outcome of the call depends on
the word stored there. With a one-word stream beside a ten-word stream, the
scan of the long stream keeps the zero vector and `find_pattern` reads the
short stream's buffer at word index 9, past its 25 allocated bytes. -/
theorem lookahead_reads_outside_buffer :
    (eligible [stream_A 0, stream_B 0] zero_offsets 0 = true ∧
      past_end [stream_A 0, stream_B 0] 0 (zero_offsets.set 0 1) = false ∧
      read_index 0 (zero_offsets.set 0 1) 0 = -1 ∧
      in_buffer (stream_A 0) (-1) = false ∧
      adjust_offsets [stream_A 0x11111111, stream_B 0] 0 zero_offsets ≠
        adjust_offsets [stream_A 0, stream_B 0] 0 zero_offsets) ∧
    ((scan_trace [plain_stream 0x11111111, stream_ten] 1)[9]? = some (9, zero_offsets) ∧
      find_gpuaddr stream_ten (stream_ten.buf 9) = -1 ∧
      read_index 9 zero_offsets 0 = 9 ∧
      in_buffer (plain_stream 0x11111111) 9 = false ∧
      in_buffer (plain_stream 0x11111111) 5 = true ∧
      in_buffer (plain_stream 0x11111111) 6 = false) := by
  decide

/-! ## The loop of main -/

theorem read_row_records_left :
    ∀ (ss : List (context × List (sect × Int × (Int → Nat)))) (rt rt1 : Option sect)
      (ss1 : List (context × List (sect × Int × (Int → Nat)))),
      read_row rt ss = some (rt1, ss1) →
      records_left ss1 ≤ records_left ss ∧
      (rt = none → rt1 ≠ none → records_left ss1 < records_left ss) := by
  intro ss
  induction ss with
  | nil =>
    intro rt rt1 ss1 h
    simp only [read_row, Option.some.injEq, Prod.mk.injEq] at h
    obtain ⟨h1, h2⟩ := h
    subst h1 h2
    exact ⟨le_refl _, fun h3 h4 => absurd h3 h4⟩
  | cons s rest ih =>
    intro rt rt1 ss1 h
    obtain ⟨ctx, inp⟩ := s
    cases inp with
    | nil =>
      simp only [read_row, Option.map_eq_some', Prod.mk.injEq] at h
      obtain ⟨p, hp, h1, h2⟩ := h
      obtain ⟨ha, hb⟩ := ih rt p.1 p.2 hp
      subst h1 h2
      simp only [records_left, List.map_cons, List.sum_cons, List.length_nil, zero_add] at *
      exact ⟨ha, hb⟩
    | cons r more =>
      simp only [read_row] at h
      split_ifs at h
      simp only [Option.map_eq_some', Prod.mk.injEq] at h
      obtain ⟨p, hp, h1, h2⟩ := h
      obtain ⟨ha, -⟩ := ih _ p.1 p.2 hp
      subst h1 h2
      simp only [records_left, List.map_cons, List.sum_cons, List.length_cons] at *
      constructor
      · omega
      · intro _ _; omega

theorem handle_row_records_left (t : sect)
    (ss : List (context × List (sect × Int × (Int → Nat)))) :
    records_left (handle_row t ss) = records_left ss := by
  unfold records_left handle_row
  rw [List.map_map]
  congr 1
  apply List.map_congr_left
  intro s _
  simp only [Function.comp]
  split_ifs <;> rfl

/-- The loop of `main` ends within one iteration more than the records the
streams hold. -/
theorem main_loop_returns :
    ∀ (fuel : Nat) (ss : List (context × List (sect × Int × (Int → Nat)))),
      records_left ss < fuel → (main_loop fuel ss).status ≠ none := by
  intro fuel
  induction fuel with
  | zero => intro ss h; omega
  | succ fuel ih =>
    intro ss h
    simp only [main_loop]
    cases hr : read_row none ss with
    | none => simp
    | some p =>
      obtain ⟨rt1, ss1⟩ := p
      cases rt1 with
      | none => simp
      | some t =>
        simp only
        split_ifs
        · simp only
          apply ih
          rw [handle_row_records_left]
          have := (read_row_records_left ss none (some t) ss1 hr).2 rfl (by simp)
          omega
        · simp

set_option maxRecDepth 1000000 in
/-- Claim C17, failing input. Two input files that each hold an empty flush
record and then a parameter record: equal counts and equal tags, yet the
loop of `main` makes one iteration, runs no handler (`ctx->sz > 0` fails, so
the `handle_flush` registered for the row's type is not called), and ends
with status 0 while each file still holds its parameter record. -/
theorem main_stops_at_empty_row :
    flush_first_inputs.map (fun inp => inp.map (fun r => r.1)) =
      [[sect.flush, sect.param], [sect.flush, sect.param]] ∧
    (main flush_first_inputs).rows = [(sect.flush, [false, false])] ∧
    (main flush_first_inputs).status = some 0 ∧
    (main flush_first_inputs).rest.map (fun s => s.2.length) = [1, 1] := by
  decide

/-! ## The insertion scenario and the word before the buffer -/

set_option maxRecDepth 1000000 in
/-- Claim C13, failing input.  A stream holds five active parameters of value
1920 and length 16 (types 0 to 4) and the word 1920 takes the shared-pattern
branch.  The parameter loop stores five masks `0xffff`, the fifth past the
4-element `pmasks` and `pcolors`.  The two high bytes of the word are covered
by no parameter mask and by no known pattern, and the claim has them blue:
the byte loop finds none of `pmasks[0..3]` covering them, goes on to
`j = 4 < nparams` and takes bold and colour from `pmasks[4]`, `pcolors[4]`,
outside the arrays. -/
theorem byte_loop_reads_past_pmasks :
    find_gpuaddr (ctxAt [five_params_stream] 0) 1920 = -1 ∧
    find_pattern [five_params_stream] 1920 0 zero_offsets = 0 ∧
    (param_matches five_params_stream 1920).map (fun e => e.1) =
      [0xffff, 0xffff, 0xffff, 0xffff, 0xffff] ∧
    (known_match 1920).1 = 0 ∧
    (∀ k, k < 2 → ∀ e, e ∈ param_matches five_params_stream 1920 →
      (0xff000000 >>> (8 * k)) &&& e.1 = 0) ∧
    pmask_reads (param_matches five_params_stream 1920) 0 = 5 ∧
    pmask_reads (param_matches five_params_stream 1920) 1 = 5 ∧
    pmasks_size = 4 := by
  decide

end Redump
